import Mathlib

/-!
Verification of the tool-call extraction and streaming-emission subsystem of a
llama-cpp-python chat-completion server for Qwen3-Coder.

The development shallowly embeds, over `List Char`:
  * `Src.parseToolCalls` / `Src.hasToolCalls` — the non-streaming parser of
    `python-server/tool_parser.py` (`Qwen3CoderToolParser.parse_tool_calls`,
    `has_tool_calls`), including its regex scanning, its coercion chain
    (`json.loads`, then `ast.literal_eval`, then the literal string) and its
    heuristic fallback for blocks without parameter tags.  Fallible paths
    (`KeyError` from `param_map[func_name]`, `TypeError` from `json.dumps` on a
    set) are modelled with `Except`.
  * `Src.streamSSE` — the streaming aggregator of
    `python-server/qwen_server.py` (`stream_chat_completion`): buffering,
    tag-boundary holdback, watchdog, flush and frame emission, with the
    upstream generator modelled as a list of chunks plus an optional fault.
  * `SpecModel.parse` — the stricter, schema-gated parser variant that the
    specification (§4.1–4.4, §9) follows; that variant is code of the
    repository not included under `src/`, so it is modelled from the
    specification's words.
-/

set_option maxRecDepth 16384

namespace QwenServer

/-- Strings are modelled as lists of characters. -/
abbrev Str := List Char

/-- ASCII whitespace, as recognised by Python's `str.strip` on ASCII text
(the inputs of interest are ASCII; Python also strips further Unicode
whitespace, which never occurs here). -/
def isSpaceChar (c : Char) : Bool :=
  c = ' ' || c = '\t' || c = '\n' || c = '\r' || c = Char.ofNat 11 || c = Char.ofNat 12

/-- `s.lstrip()` for whitespace. -/
def trimLeft (s : Str) : Str := s.dropWhile isSpaceChar

/-- `s.rstrip()` for whitespace. -/
def trimRight (s : Str) : Str := (s.reverse.dropWhile isSpaceChar).reverse

/-- Python `s.strip()`. -/
def trim (s : Str) : Str := trimRight (trimLeft s)

/-- Python `s.strip(chars)`: remove any of the given characters from both ends. -/
def trimSet (cs : List Char) (s : Str) : Str :=
  ((s.dropWhile (cs.contains ·)).reverse.dropWhile (cs.contains ·)).reverse

/-- The backtick character (written by code point to keep it out of the text). -/
def backtickChar : Char := Char.ofNat 96

/-- Python `s.lower()` restricted to ASCII (sufficient for the inputs used). -/
def asciiLower (s : Str) : Str :=
  s.map fun c => if 'A' ≤ c ∧ c ≤ 'Z' then Char.ofNat (c.toNat + 32) else c

/-- Python `s.replace("_", "")`: drop every underscore. -/
def dropUnderscores (s : Str) : Str := s.filter (· ≠ '_')

/-- Python substring test `p in s`. -/
def strContains (s p : Str) : Bool := s.tails.any (fun t => p.isPrefixOf t)

/-- Python `s.find(p)`: index of the first occurrence of `p` in `s`. -/
def findIdx? : Str → Str → Option Nat
  | [], p => if p.isPrefixOf [] then some 0 else none
  | c :: cs, p =>
    if p.isPrefixOf (c :: cs) then some 0 else (findIdx? cs p).map (· + 1)

/-- Python `s.rfind(c)` for a single character: index of its last occurrence. -/
def rfindChar? : Str → Char → Option Nat
  | [], _ => none
  | x :: xs, c =>
    match rfindChar? xs c with
    | some j => some (j + 1)
    | none => if x = c then some 0 else none

/-- Python `s.split(p)[0]`: the text before the first occurrence of `p`
(the whole of `s` when `p` does not occur). -/
def takeBefore (s p : Str) : Str :=
  match findIdx? s p with
  | some i => s.take i
  | none => s

/-- Truthiness of an optional string, as Python evaluates `if x:` for a value
that is either `None` or a `str`. -/
def optStrTruthy : Option Str → Bool
  | none => false
  | some s => !s.isEmpty

/-- Digits of a natural number, for building Python f-strings such as
`f"task_\x7bn\x7d"`. -/
def natDigits (n : Nat) : Str := (Nat.toDigits 10 n)

/-- Python values as they flow through the parser: the results of
`json.loads` and `ast.literal_eval` and the argument dictionaries built from
them.  A non-integer numeric literal is kept as its lexeme (`numLex`); no
claim inspects numeric semantics. -/
inductive PyVal where
  | pyNone
  | bool (b : Bool)
  | int (n : Int)
  | numLex (s : Str)
  | str (s : Str)
  | list (xs : List PyVal)
  | tup (xs : List PyVal)
  | set (xs : List PyVal)
  | dict (kvs : List (PyVal × PyVal))

/-- Argument dictionaries: string keys in insertion order (Python `dict`). -/
abbrev Args := List (Str × PyVal)

/-- `d[k] = v` on an insertion-ordered dictionary: overwrite in place if the
key is present, append otherwise. -/
def dictSet {α : Type} (d : List (Str × α)) (k : Str) (v : α) : List (Str × α) :=
  match d with
  | [] => [(k, v)]
  | (k', v') :: rest => if k' = k then (k, v) :: rest else (k', v') :: dictSet rest k v

/-- Key membership in an argument dictionary (Python `k in d`). -/
def dictHas {α : Type} (d : List (Str × α)) (k : Str) : Bool := d.any (fun kv => kv.1 = k)

section JsonParse

/-- JSON whitespace, as skipped by `json.loads`. -/
def isJsonWs (c : Char) : Bool := c = ' ' || c = '\t' || c = '\n' || c = '\r'

/-- Leading JSON whitespace removed. -/
def trimJsonWs (s : Str) : Str := s.dropWhile isJsonWs

/-- One hexadecimal digit. -/
def hexVal? (c : Char) : Option Nat :=
  if '0' ≤ c ∧ c ≤ '9' then some (c.toNat - '0'.toNat)
  else if 'a' ≤ c ∧ c ≤ 'f' then some (c.toNat - 'a'.toNat + 10)
  else if 'A' ≤ c ∧ c ≤ 'F' then some (c.toNat - 'A'.toNat + 10)
  else none

/-- Four hex digits of a `\uXXXX` escape. -/
def hex4? : Str → Option (Nat × Str)
  | a :: b :: c :: d :: rest => do
    let x ← hexVal? a
    let y ← hexVal? b
    let z ← hexVal? c
    let w ← hexVal? d
    pure (((x * 16 + y) * 16 + z) * 16 + w, rest)
  | _ => none

/-- Body of a double-quoted JSON string, after the opening quote: returns the
decoded characters and the input after the closing quote.  Raw control
characters below `0x20` are refused, as `json.loads` does in strict mode. -/
def jsonStringBody : Nat → Str → Option (Str × Str)
  | 0, _ => none
  | _, [] => none
  | fuel + 1, c :: rest =>
    if c = '"' then some ([], rest)
    else if c = '\\' then
      match rest with
      | [] => none
      | e :: rest' =>
        let decoded : Option (Char × Str) :=
          if e = '"' then some ('"', rest')
          else if e = '\\' then some ('\\', rest')
          else if e = '/' then some ('/', rest')
          else if e = 'b' then some (Char.ofNat 8, rest')
          else if e = 'f' then some (Char.ofNat 12, rest')
          else if e = 'n' then some ('\n', rest')
          else if e = 'r' then some ('\r', rest')
          else if e = 't' then some ('\t', rest')
          else if e = 'u' then
            match hex4? rest' with
            | some (n, rest'') => some (Char.ofNat n, rest'')
            | none => none
          else none
        match decoded with
        | none => none
        | some (ch, after) =>
          match jsonStringBody fuel after with
          | some (s, rem) => some (ch :: s, rem)
          | none => none
    else if c.toNat < 32 then none
    else
      match jsonStringBody fuel rest with
      | some (s, rem) => some (c :: s, rem)
      | none => none

/-- JSON number after an optional leading minus sign: `0` or a nonzero-led
digit run, then optional fraction and exponent.  Integers yield `.int`;
anything with a fraction or exponent keeps its lexeme. -/
def jsonNumber? (neg : Bool) (s : Str) : Option (PyVal × Str) :=
  let isDigit := fun (c : Char) => decide ('0' ≤ c ∧ c ≤ '9')
  let intPart := s.takeWhile isDigit
  if intPart.isEmpty then none
  else if intPart.length > 1 ∧ intPart.headD '0' = '0' then none
  else
    let afterInt := s.drop intPart.length
    let fracRes : Option (Str × Str) :=
      match afterInt with
      | '.' :: t =>
        let ds := t.takeWhile isDigit
        if ds.isEmpty then none else some ('.' :: ds, t.drop ds.length)
      | _ => some ([], afterInt)
    match fracRes with
    | none => none
    | some (fracPart, afterFrac) =>
      let expRes : Option (Str × Str) :=
        match afterFrac with
        | e :: t =>
          if e = 'e' ∨ e = 'E' then
            let sgnT : Str × Str := match t with
              | s' :: t' => if s' = '+' ∨ s' = '-' then ([s'], t') else ([], t)
              | [] => ([], t)
            let ds := sgnT.2.takeWhile isDigit
            if ds.isEmpty then none
            else some (e :: (sgnT.1 ++ ds), sgnT.2.drop ds.length)
          else some ([], afterFrac)
        | [] => some ([], afterFrac)
      match expRes with
      | none => none
      | some (expPart, afterExp) =>
        if fracPart.isEmpty ∧ expPart.isEmpty then
          let n : Nat := intPart.foldl (fun a c => a * 10 + (c.toNat - '0'.toNat)) 0
          some (.int (if neg then -(n : Int) else (n : Int)), afterExp)
        else
          let lex := (if neg then ['-'] else []) ++ intPart ++ fracPart ++ expPart
          some (.numLex lex, afterExp)

mutual

/-- One JSON value at the head of the input (whitespace already skipped):
returns the value and the rest of the input. -/
def jsonValue : Nat → Str → Option (PyVal × Str)
  | 0, _ => none
  | fuel + 1, s =>
    match s with
    | [] => none
    | c :: rest =>
      if c = '"' then
        match jsonStringBody (fuel + 1) rest with
        | some (str, rem) => some (.str str, rem)
        | none => none
      else if c = '[' then
        jsonArrayItems fuel (trimJsonWs rest) true []
      else if c = '\x7b' then
        jsonObjectItems fuel (trimJsonWs rest) true []
      else if c = 't' then
        if ['r', 'u', 'e'].isPrefixOf rest then some (.bool true, rest.drop 3) else none
      else if c = 'f' then
        if ['a', 'l', 's', 'e'].isPrefixOf rest then some (.bool false, rest.drop 4) else none
      else if c = 'n' then
        if ['u', 'l', 'l'].isPrefixOf rest then some (.pyNone, rest.drop 3) else none
      else if c = '-' then jsonNumber? true rest
      else jsonNumber? false s

/-- Items of a JSON array, whitespace already skipped before each decision
point; `first` is true before the first item. -/
def jsonArrayItems (fuel : Nat) (s : Str) (first : Bool) (acc : List PyVal) :
    Option (PyVal × Str) :=
  match fuel with
  | 0 => none
  | fuel + 1 =>
    match s with
    | [] => none
    | c :: rest =>
      if c = ']' ∧ first then some (.list acc.reverse, rest)
      else
        match jsonValue fuel s with
        | none => none
        | some (v, rem) =>
          match trimJsonWs rem with
          | ']' :: rem' => some (.list (v :: acc).reverse, rem')
          | ',' :: rem' => jsonArrayItems fuel (trimJsonWs rem') false (v :: acc)
          | _ => none

/-- Members of a JSON object; duplicate keys overwrite as `json.loads` does. -/
def jsonObjectItems (fuel : Nat) (s : Str) (first : Bool) (acc : List (Str × PyVal)) :
    Option (PyVal × Str) :=
  match fuel with
  | 0 => none
  | fuel + 1 =>
    match s with
    | [] => none
    | c :: rest =>
      if c = '\x7d' ∧ first then
        some (.dict (acc.map fun kv => (PyVal.str kv.1, kv.2)), rest)
      else if c = '"' then
        match jsonStringBody fuel rest with
        | none => none
        | some (k, afterKey) =>
          match trimJsonWs afterKey with
          | ':' :: afterColon =>
            match jsonValue fuel (trimJsonWs afterColon) with
            | none => none
            | some (v, rem) =>
              let acc' := dictSet acc k v
              match trimJsonWs rem with
              | '\x7d' :: rem' =>
                some (.dict (acc'.map fun kv => (PyVal.str kv.1, kv.2)), rem')
              | ',' :: rem' => jsonObjectItems fuel (trimJsonWs rem') false acc'
              | _ => none
          | _ => none
      else none

end

/-- Model of `json.loads`: parse one JSON value, require only whitespace
after it, fail otherwise.  The fuel exceeds the input length, so it never
runs out on the call below. -/
def jsonLoads? (s : Str) : Option PyVal :=
  match jsonValue (2 * s.length + 4) (trimJsonWs s) with
  | some (v, rem) => if (trimJsonWs rem).isEmpty then some v else none
  | none => none

end JsonParse

section PyLiteral

/-- Body of a Python string literal up to the closing quote `q`.  Handles the
common escapes; an unknown escape keeps the backslash, as Python does.
Raw/byte/formatted and triple-quoted strings are outside the modelled
grammar (no input of interest uses them); the caller fails on them. -/
def pyStringBody (q : Char) : Nat → Str → Option (Str × Str)
  | 0, _ => none
  | _, [] => none
  | fuel + 1, c :: rest =>
    if c = q then some ([], rest)
    else if c = '\\' then
      match rest with
      | [] => none
      | e :: rest' =>
        let decoded : Char × Str :=
          if e = '\\' then ('\\', rest')
          else if e = '\'' then ('\'', rest')
          else if e = '"' then ('"', rest')
          else if e = 'n' then ('\n', rest')
          else if e = 'r' then ('\r', rest')
          else if e = 't' then ('\t', rest')
          else if e = 'b' then (Char.ofNat 8, rest')
          else if e = 'f' then (Char.ofNat 12, rest')
          else if e = 'v' then (Char.ofNat 11, rest')
          else if e = '0' then (Char.ofNat 0, rest')
          else ('\\', rest)
        match pyStringBody q fuel decoded.2 with
        | some (s, rem) => some (decoded.1 :: s, rem)
        | none => none
    else
      match pyStringBody q fuel rest with
      | some (s, rem) => some (c :: s, rem)
      | none => none

/-- A Python integer or float literal at the head of the input (decimal, with
optional underscores; a fraction or exponent keeps its lexeme as a float
model). -/
def pyNumber? (neg : Bool) (s : Str) : Option (PyVal × Str) :=
  let isNumCh := fun (c : Char) => decide (('0' ≤ c ∧ c ≤ '9') ∨ c = '_')
  let intPart := s.takeWhile isNumCh
  if intPart.isEmpty ∨ intPart.headD '_' = '_' then none
  else
    let afterInt := s.drop intPart.length
    let contPart :=
      match afterInt with
      | '.' :: t => '.' :: t.takeWhile isNumCh
      | _ => []
    let afterFrac := afterInt.drop contPart.length
    let expPart :=
      match afterFrac with
      | e :: t =>
        if e = 'e' ∨ e = 'E' then
          match t with
          | s' :: t' =>
            if s' = '+' ∨ s' = '-' then
              let ds := t'.takeWhile isNumCh
              if ds.isEmpty then [] else e :: s' :: ds
            else
              let ds := t.takeWhile isNumCh
              if ds.isEmpty then [] else e :: ds
          | [] => []
        else []
      | [] => []
    let afterExp := afterFrac.drop expPart.length
    if contPart.isEmpty ∧ expPart.isEmpty then
      let ds := intPart.filter (· ≠ '_')
      let n : Nat := ds.foldl (fun a c => a * 10 + (c.toNat - '0'.toNat)) 0
      some (.int (if neg then -(n : Int) else (n : Int)), afterExp)
    else
      some (.numLex ((if neg then ['-'] else []) ++ intPart ++ contPart ++ expPart), afterExp)

mutual

/-- One Python literal at the head of the input (leading whitespace already
skipped): the grammar accepted by `ast.literal_eval` restricted to `None`,
booleans, decimal numbers, single- or double-quoted strings, lists, tuples,
sets and dicts, with optional trailing commas and signed numbers. -/
def pyValue : Nat → Str → Option (PyVal × Str)
  | 0, _ => none
  | fuel + 1, s =>
    match s with
    | [] => none
    | c :: rest =>
      if c = '\'' ∨ c = '"' then
        match pyStringBody c (fuel + 1) rest with
        | some (str, rem) => some (.str str, rem)
        | none => none
      else if c = '[' then
        match pySeqItems fuel (trimJsonWs rest) ']' [] with
        | some (items, _, rem) => some (.list items, rem)
        | none => none
      else if c = '(' then
        match pySeqItems fuel (trimJsonWs rest) ')' [] with
        | some ([x], false, rem) => some (x, rem)
        | some (items, _, rem) => some (.tup items, rem)
        | none => none
      else if c = '\x7b' then
        match trimJsonWs rest with
        | '\x7d' :: rem => some (.dict [], rem)
        | s' =>
          match pyValue fuel s' with
          | none => none
          | some (v, rem) =>
            match trimJsonWs rem with
            | ':' :: rem' => pyDictItems fuel (trimJsonWs rem') v []
            | rem' => pySetItems fuel rem' [v]
      else if c = 'N' then
        if ['o', 'n', 'e'].isPrefixOf rest then some (.pyNone, rest.drop 3) else none
      else if c = 'T' then
        if ['r', 'u', 'e'].isPrefixOf rest then some (.bool true, rest.drop 3) else none
      else if c = 'F' then
        if ['a', 'l', 's', 'e'].isPrefixOf rest then some (.bool false, rest.drop 4) else none
      else if c = '-' then pyNumber? true (trimJsonWs rest)
      else if c = '+' then pyNumber? false (trimJsonWs rest)
      else pyNumber? false s

/-- Comma-separated items up to the closing bracket `close`; reports the
items and whether a trailing comma was seen, so the caller can distinguish
the parenthesized value `(x)` from the one-element tuple `(x,)`. -/
def pySeqItems (fuel : Nat) (s : Str) (close : Char) (acc : List PyVal) :
    Option (List PyVal × Bool × Str) :=
  match fuel with
  | 0 => none
  | fuel + 1 =>
    match s with
    | [] => none
    | c :: rest =>
      if c = close then some (acc.reverse, false, rest)
      else
        match pyValue fuel s with
        | none => none
        | some (v, rem) =>
          match trimJsonWs rem with
          | ',' :: rem' =>
            match trimJsonWs rem' with
            | c' :: rem'' =>
              if c' = close then some ((v :: acc).reverse, true, rem'')
              else pySeqItems fuel (c' :: rem'') close (v :: acc)
            | [] => none
          | c' :: rem' =>
            if c' = close then some ((v :: acc).reverse, false, rem')
            else none
          | [] => none

/-- Remaining members of a set display, the first value already parsed. -/
def pySetItems (fuel : Nat) (s : Str) (acc : List PyVal) : Option (PyVal × Str) :=
  match fuel with
  | 0 => none
  | fuel + 1 =>
    match s with
    | '\x7d' :: rem => some (.set acc.reverse, rem)
    | ',' :: rest =>
      match trimJsonWs rest with
      | '\x7d' :: rem => some (.set acc.reverse, rem)
      | s' =>
        match pyValue fuel s' with
        | none => none
        | some (v, rem) => pySetItems fuel (trimJsonWs rem) (v :: acc)
    | _ => none

/-- Remaining members of a dict display, the first key already parsed and its
colon consumed; `k` is that pending key. -/
def pyDictItems (fuel : Nat) (s : Str) (k : PyVal) (acc : List (PyVal × PyVal)) :
    Option (PyVal × Str) :=
  match fuel with
  | 0 => none
  | fuel + 1 =>
    match pyValue fuel s with
    | none => none
    | some (v, rem) =>
      let acc' := (k, v) :: acc
      match trimJsonWs rem with
      | '\x7d' :: rem' => some (.dict acc'.reverse, rem')
      | ',' :: rem' =>
        match trimJsonWs rem' with
        | '\x7d' :: rem'' => some (.dict acc'.reverse, rem'')
        | s' =>
          match pyValue fuel s' with
          | none => none
          | some (k', rem'') =>
            match trimJsonWs rem'' with
            | ':' :: rem''' => pyDictItems fuel (trimJsonWs rem''') k' acc'
            | _ => none
      | _ => none

end

/-- Model of `ast.literal_eval`: parse one Python literal, require only
whitespace around it. -/
def pyLitEval? (s : Str) : Option PyVal :=
  match pyValue (2 * s.length + 4) (trimJsonWs s) with
  | some (v, rem) => if (trimJsonWs rem).isEmpty then some v else none
  | none => none

end PyLiteral

section JsonDumps

/-- Python exceptions that can escape `parse_tool_calls`: `KeyError` from
`param_map[func_name]` and `TypeError` from `json.dumps` on an
unserializable value. -/
inductive PyErr where
  | keyError (k : Str)
  | typeError
deriving DecidableEq

/-- `str(e)` for the modelled exceptions (a `KeyError` prints its key in
quotes; the `TypeError` text is representative). -/
def pyErrMsg : PyErr → Str
  | .keyError k => '\'' :: (k ++ ['\''])
  | .typeError => "Object of type set is not JSON serializable".toList

/-- Decimal rendering of an integer. -/
def intDec (n : Int) : Str :=
  if n < 0 then '-' :: natDigits n.natAbs else natDigits n.natAbs

/-- Four-hex-digit `\uXXXX` escape used by `json.dumps` with `ensure_ascii`. -/
def uEscape (n : Nat) : Str :=
  let ds := Nat.toDigits 16 n
  '\\' :: 'u' :: (List.replicate (4 - ds.length) '0' ++ ds)

/-- String escaping of `json.dumps`: quote, backslash and the short escapes;
characters outside printable ASCII become `\uXXXX`. -/
def dumpStr (s : Str) : Str :=
  '"' :: (s.foldr (fun c acc =>
    (if c = '"' then ['\\', '"']
     else if c = '\\' then ['\\', '\\']
     else if c = '\n' then ['\\', 'n']
     else if c = '\r' then ['\\', 'r']
     else if c = '\t' then ['\\', 't']
     else if c = Char.ofNat 8 then ['\\', 'b']
     else if c = Char.ofNat 12 then ['\\', 'f']
     else if c.toNat < 32 ∨ c.toNat > 126 then uEscape c.toNat
     else [c]) ++ acc) ['"'])

/-- A dictionary key as `json.dumps` renders it: strings directly, and the
scalar key coercions Python applies (`1` → `"1"`, `True` → `"true"`,
`None` → `"null"`); any other key type is an error. -/
def dumpKey : PyVal → Except PyErr Str
  | .str s => .ok (dumpStr s)
  | .int n => .ok (dumpStr (intDec n))
  | .bool b => .ok (dumpStr (if b then "true".toList else "false".toList))
  | .pyNone => .ok (dumpStr "null".toList)
  | .numLex s => .ok (dumpStr s)
  | _ => .error .typeError

/-- Comma-and-space joining of rendered parts (`json.dumps` default item
separator). -/
def joinComma : List Str → Str
  | [] => []
  | [p] => p
  | p :: ps => p ++ ',' :: ' ' :: joinComma ps

mutual

/-- Model of `json.dumps` on a Python value (default separators,
`ensure_ascii`).  Tuples serialize as arrays; sets raise `TypeError`.  The
fuel exceeds the size of any value arising from the inputs, so it never
runs out at the call sites. -/
def dumpVal : Nat → PyVal → Except PyErr Str
  | 0, _ => .error .typeError
  | fuel + 1, v =>
    match v with
    | .pyNone => .ok "null".toList
    | .bool b => .ok (if b then "true".toList else "false".toList)
    | .int n => .ok (intDec n)
    | .numLex s => .ok s
    | .str s => .ok (dumpStr s)
    | .list xs =>
      match dumpItems fuel xs with
      | .ok parts => .ok ('[' :: (joinComma parts ++ [']']))
      | .error e => .error e
    | .tup xs =>
      match dumpItems fuel xs with
      | .ok parts => .ok ('[' :: (joinComma parts ++ [']']))
      | .error e => .error e
    | .set _ => .error .typeError
    | .dict kvs =>
      match dumpMembers fuel kvs with
      | .ok parts => .ok ('\x7b' :: (joinComma parts ++ ['\x7d']))
      | .error e => .error e

/-- The rendered elements of an array. -/
def dumpItems : Nat → List PyVal → Except PyErr (List Str)
  | 0, _ => .error .typeError
  | _ + 1, [] => .ok []
  | fuel + 1, x :: xs => do
    let s ← dumpVal fuel x
    let rest ← dumpItems fuel xs
    pure (s :: rest)

/-- The rendered `key: value` members of an object. -/
def dumpMembers : Nat → List (PyVal × PyVal) → Except PyErr (List Str)
  | 0, _ => .error .typeError
  | _ + 1, [] => .ok []
  | fuel + 1, (k, v) :: kvs => do
    let ks ← dumpKey k
    let vs ← dumpVal fuel v
    let rest ← dumpMembers fuel kvs
    pure ((ks ++ ':' :: ' ' :: vs) :: rest)

end

/-- `json.dumps` on an argument dictionary (string keys, insertion order),
with fuel derived from the input at the call sites. -/
def dumpArgs (fuel : Nat) (args : Args) : Except PyErr Str :=
  dumpVal fuel (.dict (args.map fun kv => (PyVal.str kv.1, kv.2)))

end JsonDumps

namespace Src

/-! Embedding of `python-server/tool_parser.py` (`Qwen3CoderToolParser`),
the parser variant present under `src/`. -/

/-- `self.tool_call_start_token`. -/
def toolCallStartTok : Str := "<tool_call>".toList

/-- `self.tool_call_end_token`. -/
def toolCallEndTok : Str := "</tool_call>".toList

/-- `self.function_prefix`. -/
def functionOpenTok : Str := "<function=".toList

/-- `self.function_end_token`. -/
def functionEndTok : Str := "</function>".toList

/-- `self.parameter_prefix`. -/
def parameterOpenTok : Str := "<parameter=".toList

/-- `self.parameter_end_token`. -/
def parameterEndTok : Str := "</parameter>".toList

/-- Scanner for `re.findall(r"<function=([^>]+)>(.*?)(?:</function>|$)", s,
re.DOTALL)` (tool_parser.py line 56): at each position, a match needs the
literal `<function=`, at least one non-`>` name character followed by `>`,
then the lazy body runs to the first `</function>` (consumed) or to `$`.
With no `MULTILINE` flag, `$` matches at the end of the string and also just
before a terminal newline, so an unclosed body drops one trailing newline.
After a `$` match, at most a final newline remains, which cannot contain
another match. -/
def scanFuncBlocks : Nat → Str → List (Str × Str)
  | 0, _ => []
  | _, [] => []
  | fuel + 1, c :: cs =>
    if functionOpenTok.isPrefixOf (c :: cs) then
      let afterOpen := (c :: cs).drop functionOpenTok.length
      let name := afterOpen.takeWhile (· ≠ '>')
      let afterName := afterOpen.drop name.length
      if name.isEmpty ∨ afterName.isEmpty then scanFuncBlocks fuel cs
      else
        let body := afterName.drop 1
        match findIdx? body functionEndTok with
        | some k =>
          (name, body.take k) :: scanFuncBlocks fuel (body.drop (k + functionEndTok.length))
        | none =>
          if body.getLast? = some '\n' then [(name, body.dropLast)]
          else [(name, body)]
    else scanFuncBlocks fuel cs

/-- All function blocks of the text (`func_blocks` at line 56). -/
def findFuncBlocks (s : Str) : List (Str × Str) := scanFuncBlocks (s.length + 1) s

/-- Lazy parameter body of `self.parameter_regex` (line 38): the body stops
at the first `</parameter>` (consumed), or zero-width before the next
`<parameter=` or a `</function>`, or at `$` (end of text, or just before a
terminal newline).  Returns the body and the resumption point. -/
def paramBody : Nat → Str → Str × Str
  | 0, t => ([], t)
  | fuel + 1, t =>
    if parameterEndTok.isPrefixOf t then ([], t.drop parameterEndTok.length)
    else if parameterOpenTok.isPrefixOf t then ([], t)
    else if functionEndTok.isPrefixOf t then ([], t)
    else
      match t with
      | [] => ([], [])
      | ['\n'] => ([], ['\n'])
      | c :: rest =>
        let br := paramBody fuel rest
        (c :: br.1, br.2)

/-- `self.parameter_regex.finditer(func_content)` (line 63): every
`<parameter=NAME>` match with its lazily bounded body, in order. -/
def scanParams : Nat → Str → List (Str × Str)
  | 0, _ => []
  | _, [] => []
  | fuel + 1, c :: cs =>
    if parameterOpenTok.isPrefixOf (c :: cs) then
      let afterOpen := (c :: cs).drop parameterOpenTok.length
      let name := afterOpen.takeWhile (· ≠ '>')
      let afterName := afterOpen.drop name.length
      if name.isEmpty ∨ afterName.isEmpty then scanParams fuel cs
      else
        let br := paramBody afterName.length (afterName.drop 1)
        (name, br.1) :: scanParams fuel br.2
    else scanParams fuel cs

/-- All parameter matches of a function body. -/
def findParams (s : Str) : List (Str × Str) := scanParams (s.length + 1) s

/-- Whether a trimmed value looks like a list or dict literal (line 72–73). -/
def looksStructured (pv : Str) : Bool :=
  (pv.head? = some '[' ∧ pv.getLast? = some ']') ∨
    (pv.head? = some '\x7b' ∧ pv.getLast? = some '\x7d')

/-- The coercion chain of lines 72–83: when the stripped value looks like a
list/dict literal, try `json.loads` on the back-tick-stripped text, then
`ast.literal_eval` on the value itself, then keep the string; otherwise keep
the string. -/
def coerceSrcValue (pv : Str) : PyVal :=
  if looksStructured pv then
    let cleaned := trim (trimSet [backtickChar] pv)
    match jsonLoads? cleaned with
    | some v => v
    | Option.none =>
      match pyLitEval? pv with
      | some v => v
      | Option.none => .str pv
  else .str pv

/-- The parameter loop of lines 63–83: each match sets
`has_formal_params`; a name that strips to nothing is skipped; values are
stripped and coerced into the insertion-ordered dictionary. -/
def formalArgs (params : List (Str × Str)) : Args :=
  params.foldl
    (fun acc pnv =>
      let pn := trim pnv.1
      if pn.isEmpty then acc
      else dictSet acc pn (coerceSrcValue (trim pnv.2)))
    []

/-- `re.search(r"(\[.*?\])", model_output, re.DOTALL)` (line 94): the first
`[` that has some `]` after it, captured up to the nearest such `]`.  When
the first `[` has no later `]`, no later `[` has one either, so the search
fails. -/
def firstBracketSpan? : Nat → Str → Option Str
  | 0, _ => none
  | _, [] => none
  | fuel + 1, c :: rest =>
    if c = '[' then
      match findIdx? rest [']'] with
      | some j => some ('[' :: (rest.take j ++ [']']))
      | none => none
    else firstBracketSpan? fuel rest

/-- Python `\s` whitespace class. -/
def isPyWs (c : Char) : Bool :=
  c = ' ' || c = '\t' || c = '\n' || c = '\r' || c = Char.ofNat 11 || c = Char.ofNat 12

/-- The bullet-character class `[\-\*â€¢\d\.]` of line 109.  The source file
holds a mis-decoded UTF-8 bullet, so the class contains the three characters
`â`, `€`, `¢`. -/
def isBulletChar (c : Char) : Bool :=
  c = '-' || c = '*' || c = Char.ofNat 226 || c = Char.ofNat 8364 || c = Char.ofNat 162 ||
    ('0' ≤ c ∧ c ≤ '9') || c = '.'

/-- Length of a match of `,\s*|\s+and\s+|\n\s*[\-\*â€¢\d\.]+\s*` at the head
of the input, trying the alternatives in the regex's order. -/
def splitMatchLen? (s : Str) : Option Nat :=
  match s with
  | [] => none
  | c :: rest =>
    if c = ',' then some (1 + (rest.takeWhile isPyWs).length)
    else
      let w := (c :: rest).takeWhile isPyWs
      let alt2 : Option Nat :=
        if w.length ≥ 1 ∧ "and".toList.isPrefixOf ((c :: rest).drop w.length) then
          let w2 := ((c :: rest).drop (w.length + 3)).takeWhile isPyWs
          if w2.length ≥ 1 then some (w.length + 3 + w2.length) else none
        else none
      match alt2 with
      | some n => some n
      | none =>
        if c = '\n' then
          let w1 := rest.takeWhile isPyWs
          let bs := (rest.drop w1.length).takeWhile isBulletChar
          if bs.length ≥ 1 then
            let w2 := (rest.drop (w1.length + bs.length)).takeWhile isPyWs
            some (1 + w1.length + bs.length + w2.length)
          else none
        else none

/-- `re.split` with the pattern above (line 109): cut at each leftmost
match, scanning left to right; `acc` holds the piece being accumulated. -/
def reSplitGo : Nat → Str → Str → List Str
  | 0, rest, acc => [acc.reverse ++ rest]
  | _, [], acc => [acc.reverse]
  | fuel + 1, s@(c :: cs), acc =>
    match splitMatchLen? s with
    | some n => acc.reverse :: reSplitGo fuel (s.drop n) []
    | none => reSplitGo fuel cs (c :: acc)

/-- The pieces `re.split` returns for a preamble. -/
def splitPreamble (s : Str) : List Str := reSplitGo (s.length + 1) s []

/-- One candidate todo item (lines 110–118): strip, strip `.:;`, strip
again; keep only substantial pieces that are not lead-in phrases. -/
def todoItemOf (item : Str) : Option PyVal :=
  let cleaned := trim (trimSet ".:;".toList (trim item))
  let low := asciiLower cleaned
  if cleaned ≠ [] ∧ cleaned.length > 1 ∧
      ¬ ("i'll create".toList.isPrefixOf low) ∧ ¬ ("here is".toList.isPrefixOf low) then
    some (.str cleaned)
  else none

/-- The items list of lines 105–118, with the running `task_{n}` ids and the
fixed `status`/`priority` fields attached. -/
def todoItems (pieces : List Str) : List PyVal :=
  go pieces []
where
  go : List Str → List PyVal → List PyVal
    | [], acc => acc.reverse
    | p :: ps, acc =>
      match todoItemOf p with
      | some (.str cleaned) =>
        let item : PyVal := .dict
          [(.str "id".toList, .str ("task_".toList ++ natDigits (acc.length + 1))),
           (.str "content".toList, .str cleaned),
           (.str "status".toList, .str "pending".toList),
           (.str "priority".toList, .str "medium".toList)]
        go ps (item :: acc)
      | _ => go ps acc

/-- `param_map` of lines 129–133, indexed — as the source does — by the
unnormalized `func_name`. -/
def paramMapLookup (funcName : Str) : Option Str :=
  if funcName = "task".toList then some "prompt".toList
  else if funcName = "webfetch".toList then some "url".toList
  else if funcName = "bash".toList then some "command".toList
  else none

/-- The heuristic fallback of lines 85–135, applied when a block has no
formal parameters.  The `task`/`webfetch`/`bash` branch looks the parameter
name up with the unnormalized `func_name`, which raises `KeyError` when the
name only matches after normalization. -/
def heuristicArgs (modelOutput funcName funcContent : Str) : Except PyErr Args :=
  let normName := dropUnderscores (asciiLower funcName)
  if normName = "todowrite".toList ∨ normName = "writetodos".toList ∨
      normName = "tasks".toList then
    let args₁ : Args :=
      match firstBracketSpan? (modelOutput.length + 1) modelOutput with
      | some span =>
        match jsonLoads? (trim span) with
        | some v => dictSet [] "todos".toList v
        | Option.none => []
      | Option.none => []
    if dictHas args₁ "todos".toList then .ok args₁
    else
      let pre :=
        match findIdx? modelOutput toolCallStartTok with
        | some i => modelOutput.take i
        | Option.none => modelOutput.dropLast
      let items := todoItems (splitPreamble (trim pre))
      if items.isEmpty then .ok args₁
      else .ok (dictSet args₁ "todos".toList (.list items))
  else if normName = "task".toList ∨ normName = "webfetch".toList ∨
      normName = "bash".toList then
    let remaining := trim funcContent
    if remaining ≠ [] then
      match paramMapLookup funcName with
      | some key => .ok (dictSet [] key (.str remaining))
      | Option.none => .error (.keyError funcName)
    else .ok []
  else .ok []

/-- A structured call as the parser returns it.  The source also attaches a
fresh `call_{uuid4}` identifier and the constant `type: "function"`;
identifier generation is nondeterministic and no claim depends on it, so
the model keeps the function name and the string-encoded arguments. -/
structure Call where
  name : Str
  argumentsJson : Str
deriving DecidableEq

/-- The per-block body of the `for func_name, func_content in func_blocks`
loop (lines 58–147): strip the name, collect formal parameters, fall back to
heuristics when there are none, and emit a call when the name is nonempty,
serializing the arguments with `json.dumps`. -/
def processBlock (modelOutput : Str) (block : Str × Str) :
    Except PyErr (Option Call) := do
  let funcName := trim block.1
  let params := findParams block.2
  let args ←
    if params.isEmpty then heuristicArgs modelOutput funcName block.2
    else pure (formalArgs params)
  if funcName.isEmpty then pure Option.none
  else
    match dumpArgs (2 * modelOutput.length + 16) args with
    | .ok s => pure (some ⟨funcName, s⟩)
    | .error e => .error e

/-- The loop over all blocks, preserving source order. -/
def processBlocks (modelOutput : Str) : List (Str × Str) → Except PyErr (List Call)
  | [] => .ok []
  | b :: bs => do
    let c? ← processBlock modelOutput b
    let rest ← processBlocks modelOutput bs
    pure (match c? with | some c => c :: rest | Option.none => rest)

set_option linter.unusedVariables false

/-- `Qwen3CoderToolParser.parse_tool_calls` (lines 43–149).  The `tools`
argument is accepted and — exactly as in the source — never read.  A text
without `<function=` is rejected immediately; otherwise every function
block is processed and `found` is the non-emptiness of the result. -/
def parseToolCalls (modelOutput : Str)
    (tools : Option (List (Str × List Str)) := Option.none) :
    Except PyErr (Bool × List Call) :=
  if !strContains modelOutput functionOpenTok then .ok (false, [])
  else
    match processBlocks modelOutput (findFuncBlocks modelOutput) with
    | .ok calls => .ok (calls.length > 0, calls)
    | .error e => .error e

set_option linter.unusedVariables true

/-- `Qwen3CoderToolParser.has_tool_calls` (lines 230–232). -/
def hasToolCalls (t : Str) : Bool :=
  strContains t toolCallStartTok || strContains t functionOpenTok

/-! Embedding of `stream_chat_completion` (qwen_server.py lines 195–398).
The upstream generator is modelled as a list of chunks plus an optional
fault raised when the next chunk is requested after the list is exhausted. -/

/-- One element of an engine chunk's `choices` array. -/
structure Choice where
  deltaContent : Option Str
  finishReason : Option Str
deriving DecidableEq

/-- An engine chunk: the metadata the aggregator captures and the choices. -/
structure Chunk where
  cid : Option Str
  cmodel : Option Str
  created : Option Int
  choices : List Choice
deriving DecidableEq

/-- The aggregator's mutable locals (lines 198–205). -/
structure StState where
  buffer : Str
  yielded : Nat
  chunkId : Option Str
  chunkModel : Option Str
  chunkCreated : Option Int
  detected : Bool
  tokens : Nat
  finished : Bool
deriving DecidableEq

/-- The locals' initial values. -/
def initState : StState :=
  ⟨[], 0, Option.none, Option.none, Option.none, false, 0, false⟩

/-- The SSE frames the generator yields.  `text` frames are the `temp_chunk`
emissions of lines 247–249 and 257–259, whose `delta` is replaced but whose
`finish_reason` is the engine chunk's own (`carried`); `chunkEcho` is the
re-serialized original chunk of line 264; `passthrough` is line 317;
`flushText` carries an explicit null finish reason (line 367). -/
inductive Frame where
  | text (content : Str) (carried : Option Str)
  | chunkEcho (c : Chunk)
  | passthrough (c : Chunk)
  | toolDelta (idx : Nat) (name : Str) (argumentsJson : Str)
  | finish (reason : Str)
  | flushText (content : Str)
  | errorFrame (message : Str) (etype : Str)
  | done
deriving DecidableEq

/-- The `finish_reason` field a frame carries on the wire (`none` = null or
absent). -/
def frameFinish : Frame → Option Str
  | .text _ carried => carried
  | .chunkEcho c => (c.choices.head?).bind (·.finishReason)
  | .passthrough c => (c.choices.head?).bind (·.finishReason)
  | .finish r => some r
  | _ => Option.none

/-- `stop_indicators` of line 231. -/
def stopIndicators : List Str :=
  ["<|im_start|>".toList, "<|im_end|>".toList, "<|endoftext|>".toList]

/-- Metadata capture of lines 209–212. -/
def metaUpd (st : StState) (c : Chunk) : StState :=
  let st₁ :=
    if optStrTruthy st.chunkId then st
    else { st with chunkId := c.cid, chunkModel := c.cmodel }
  { st₁ with chunkCreated := match c.created with
      | some v => some v
      | Option.none => st₁.chunkCreated }

/-- How one loop iteration ends: fall through to the next chunk, `break`, or
an exception escaping the loop body. -/
inductive StepRes where
  | next (st : StState)
  | halt (st : StState)
  | oops (st : StState) (e : PyErr)

/-- The state a step result carries. -/
def StepRes.state : StepRes → StState
  | .next st => st
  | .halt st => st
  | .oops st _ => st

/-- Content buffering of lines 221–225: append truthy delta content and,
when a call has been detected, count the fragment. -/
def bufferUpd (st : StState) (choice : Choice) : StState :=
  if optStrTruthy choice.deltaContent then
    { st with buffer := st.buffer ++ choice.deltaContent.getD [],
              tokens := if st.detected then st.tokens + 1 else st.tokens }
  else st

/-- The hard-stop scan of lines 231–232 over the unyielded tail. -/
def stopScan (st : StState) : Bool :=
  stopIndicators.any (fun p => strContains (st.buffer.drop st.yielded) p)

/-- Lines 236–265: in the undetected state, either transition on a trigger
(flushing the text strictly before it), or hold back from the last `<` of
the whole buffer, or flush everything when the buffer has no `<` at all (in
which case the original chunk is re-emitted); in the detected state, do
nothing. -/
def triggerOrHoldback (st : StState) (c : Chunk) (fin : Option Str) :
    List Frame × StState :=
  if !st.detected then
    if strContains st.buffer toolCallStartTok ∨ strContains st.buffer functionOpenTok then
      let trigger :=
        if strContains st.buffer toolCallStartTok then toolCallStartTok
        else functionOpenTok
      let tIdx := (findIdx? st.buffer trigger).getD 0
      let textBefore := st.buffer.take tIdx
      let st' := { st with detected := true, tokens := 0 }
      if textBefore.length > st'.yielded then
        let ty := textBefore.drop st'.yielded
        if !ty.isEmpty then
          ([Frame.text ty fin], { st' with yielded := textBefore.length })
        else ([], st')
      else ([], st')
    else
      match rfindChar? st.buffer '<' with
      | some lastLt =>
        if lastLt > st.yielded then
          let ty := (st.buffer.take lastLt).drop st.yielded
          if !ty.isEmpty then ([Frame.text ty fin], { st with yielded := lastLt })
          else ([], st)
        else ([], st)
      | Option.none =>
        let ty := st.buffer.drop st.yielded
        if !ty.isEmpty then
          ([Frame.chunkEcho c], { st with yielded := st.buffer.length })
        else ([], st)
  else ([], st)

/-- Lines 267–314: when detected and a closing marker is in the buffer, run
the parser; emitted calls are followed by the in-loop `tool_calls` finish
frame and a `break`; otherwise an engine-signalled truthy finish reason
breaks the loop. -/
def inCallCheck (st₁ : StState) (frames₁ : List Frame) (fin : Option Str) :
    List Frame × StepRes :=
  if st₁.detected ∧
      (strContains st₁.buffer toolCallEndTok ∨ strContains st₁.buffer functionEndTok) then
    match parseToolCalls st₁.buffer with
    | .error e => (frames₁, .oops st₁ e)
    | .ok (has, calls) =>
      if has ∧ !calls.isEmpty then
        (frames₁ ++
          (calls.enum.map fun ic => Frame.toolDelta ic.1 ic.2.name ic.2.argumentsJson) ++
          [Frame.finish "tool_calls".toList],
         .halt { st₁ with finished := true })
      else if optStrTruthy fin then (frames₁, .halt st₁)
      else (frames₁, .next st₁)
  else if optStrTruthy fin then (frames₁, .halt st₁)
  else (frames₁, .next st₁)

/-- The loop body of lines 207–314 for one chunk: metadata capture, content
buffering with the watchdog and the hard-stop scan, trigger detection with
pre-text flush or plain-text holdback, complete-call processing, and the
engine-finish break. -/
def processChunk (st₀ : StState) (c : Chunk) : List Frame × StepRes :=
  let st := metaUpd st₀ c
  match c.choices with
  | [] => ([Frame.passthrough c], .next st)
  | choice :: _ =>
    let fin := choice.finishReason
    let hasContent := optStrTruthy choice.deltaContent
    let st := bufferUpd st choice
    if hasContent ∧ st.detected ∧ st.tokens > 500 then ([], .halt st)
    else if hasContent ∧ stopScan st then ([], .halt st)
    else
      let tr := triggerOrHoldback st c fin
      inCallCheck tr.2 tr.1 fin

/-- How the `for` loop over the generator ended. -/
inductive LoopOut where
  | ranOff (st : StState)
  | broke (st : StState)
  | raised (st : StState) (e : PyErr)

/-- The state a loop outcome carries. -/
def LoopOut.state : LoopOut → StState
  | .ranOff st => st
  | .broke st => st
  | .raised st _ => st

/-- Driving the loop over a list of chunks. -/
def runLoop : StState → List Chunk → List Frame × LoopOut
  | st, [] => ([], .ranOff st)
  | st, c :: cs =>
    match processChunk st c with
    | (fs, .next st') =>
      let r := runLoop st' cs
      (fs ++ r.1, r.2)
    | (fs, .halt st') => (fs, .broke st')
    | (fs, .oops st' e) => (fs, .raised st' e)

/-- Lines 354–370: cut the remaining text at each stop sequence in the
listed order and emit it when it is nonempty after stripping (the frame
itself carries the uncut-but-unstripped text, as the source does). -/
def flushTail (remaining : Str) : List Frame :=
  let r := takeBefore remaining "<|im_end|>".toList
  let r := takeBefore r "<|endoftext|>".toList
  let r := takeBefore r "<|im_start|>".toList
  if !(trim r).isEmpty then [Frame.flushText r] else []

/-- Lines 319–351: the remaining-buffer block.  Returns the frames emitted
and the final value of `finished_with_tool_calls`, or the exception the
trailing parse raised. -/
def flushCore (st : StState) : Except PyErr (List Frame × Bool) :=
  if !st.finished ∧ st.buffer.length > st.yielded then
    let remaining := st.buffer.drop st.yielded
    if st.detected then
      match parseToolCalls st.buffer with
      | .error e => .error e
      | .ok (has, calls) =>
        if has ∧ !calls.isEmpty then
          .ok (calls.enum.map fun ic => Frame.toolDelta ic.1 ic.2.name ic.2.argumentsJson,
            true)
        else .ok (flushTail remaining, st.finished)
    else .ok (flushTail remaining, st.finished)
  else .ok ([], st.finished)

/-- Lines 319–388: flush, then the single final chunk — emitted only when
`finished_with_tool_calls` is unset — then the `[DONE]` sentinel.  An
exception inside the flush is caught by the handler of lines 390–398, which
yields the error frame and ends the stream without the sentinel. -/
def flushPhase (st : StState) : List Frame :=
  match flushCore st with
  | .error e => [Frame.errorFrame (pyErrMsg e) "stream_error".toList]
  | .ok (fs, finished) =>
    let finalReason := if finished then "tool_calls".toList else "stop".toList
    fs ++ (if finished then [] else [Frame.finish finalReason]) ++ [Frame.done]

/-- `stream_chat_completion` on a generator that yields `chunks` and then
either ends or raises `fault`.  A `break` inside the loop never requests
another chunk, so a pending fault is only observed when the loop exhausts
the list; any exception reaches the handler of lines 390–398 after the
frames already yielded. -/
def streamSSE (chunks : List Chunk) (fault : Option Str) : List Frame :=
  match runLoop initState chunks with
  | (fs, .raised _ e) => fs ++ [Frame.errorFrame (pyErrMsg e) "stream_error".toList]
  | (fs, .broke st) => fs ++ flushPhase st
  | (fs, .ranOff st) =>
    match fault with
    | some m => fs ++ [Frame.errorFrame m "stream_error".toList]
    | Option.none => fs ++ flushPhase st

/-- The number of emitted frames whose `finish_reason` is non-null. -/
def countFinishFrames (fs : List Frame) : Nat :=
  (fs.filter (fun f => (frameFinish f).isSome)).length

/-- The number of tool-call delta frames. -/
def countToolDeltas (fs : List Frame) : Nat :=
  (fs.filter (fun f => match f with | .toolDelta _ _ _ => true | _ => false)).length

/-- The loop state after processing a chunk list (frozen from the point of a
`break` or an exception on). -/
def loopState (chunks : List Chunk) : StState :=
  (runLoop initState chunks).2.state

end Src

namespace SpecModel

/-! The specification (§9) follows a stricter, schema-gated parser variant
and records the heuristic variant of `tool_parser.py` as superseded.  That
stricter variant is code of this repository that is not included under
`src/` (compare `glm_config.py`, whose server file is likewise absent), so
the definitions of this namespace are modelled from the specification's
words (§4.1–§4.4, §6) and carry the section they render.  The tag strings
themselves are those of §6 and coincide with the `Src` tokens. -/

/-- Modelled from the spec: the `ToolSchema` record of §3 — name, required
parameter names and declared parameter names — supplied read-only by the
caller.  It stands in for the missing variant's schema argument. -/
structure ToolSchema where
  name : Str
  required : List Str
  properties : List Str

/-- Modelled from the spec: keyed read-only lookup in the schema mapping. -/
def lookupSchema (ss : List ToolSchema) (n : Str) : Option ToolSchema :=
  ss.find? (fun t => t.name = n)

/-- Modelled from the spec: the outer wrapper spans of §4.1 — every
`<tool_call>` body up to its `</tool_call>`, or to end-of-text when
unclosed. -/
def wrapperBodies : Nat → Str → List Str
  | 0, _ => []
  | _, [] => []
  | fuel + 1, c :: cs =>
    if Src.toolCallStartTok.isPrefixOf (c :: cs) then
      let body0 := (c :: cs).drop Src.toolCallStartTok.length
      match findIdx? body0 Src.toolCallEndTok with
      | some k => body0.take k :: wrapperBodies fuel (body0.drop (k + Src.toolCallEndTok.length))
      | Option.none => [body0]
    else wrapperBodies fuel cs

/-- Modelled from the spec: the function tags of §6 — `<function=NAME>` with
`NAME` excluding `>` and newline, the body up to `</function>` or
end-of-text when unclosed (§4.1 tolerates truncation). -/
def scanFuncTags : Nat → Str → List (Str × Str)
  | 0, _ => []
  | _, [] => []
  | fuel + 1, c :: cs =>
    if Src.functionOpenTok.isPrefixOf (c :: cs) then
      let afterOpen := (c :: cs).drop Src.functionOpenTok.length
      let name := afterOpen.takeWhile (fun ch => ch ≠ '>' ∧ ch ≠ '\n')
      let afterName := afterOpen.drop name.length
      if name.isEmpty ∨ afterName.head? ≠ some '>' then scanFuncTags fuel cs
      else
        let body := afterName.drop 1
        match findIdx? body Src.functionEndTok with
        | some k => (name, body.take k) :: scanFuncTags fuel (body.drop (k + Src.functionEndTok.length))
        | Option.none => [(name, body)]
    else scanFuncTags fuel cs

/-- Modelled from the spec: the Tag Block Extractor of §4.1 — wrapper spans
first, each contributing its first inner function tag; unwrapped mode over
the whole text only when no wrapper span exists anywhere. -/
def extract (s : Str) : List (Str × Str) :=
  let ws := wrapperBodies (s.length + 1) s
  if ws.isEmpty then scanFuncTags (s.length + 1) s
  else ws.filterMap fun b => (scanFuncTags (b.length + 1) b).head?

/-- Modelled from the spec: a parameter body of §6 runs to `</parameter>`,
or to the next `<parameter=`, or to `</function>`, or to end-of-text —
whichever comes first; the first marker is consumed, the others are not. -/
def specParamBody : Nat → Str → Str × Str
  | 0, t => ([], t)
  | fuel + 1, t =>
    if Src.parameterEndTok.isPrefixOf t then ([], t.drop Src.parameterEndTok.length)
    else if Src.parameterOpenTok.isPrefixOf t then ([], t)
    else if Src.functionEndTok.isPrefixOf t then ([], t)
    else
      match t with
      | [] => ([], [])
      | c :: rest =>
        let br := specParamBody fuel rest
        (c :: br.1, br.2)

/-- Modelled from the spec: the parameter sub-extraction of §4.1 over a
block body — repeatedly match `<parameter=NAME>` and capture its bounded
body. -/
def scanSpecParams : Nat → Str → List (Str × Str)
  | 0, _ => []
  | _, [] => []
  | fuel + 1, c :: cs =>
    if Src.parameterOpenTok.isPrefixOf (c :: cs) then
      let afterOpen := (c :: cs).drop Src.parameterOpenTok.length
      let name := afterOpen.takeWhile (· ≠ '>')
      let afterName := afterOpen.drop name.length
      if name.isEmpty ∨ afterName.isEmpty then scanSpecParams fuel cs
      else
        let br := specParamBody afterName.length (afterName.drop 1)
        (name, br.1) :: scanSpecParams fuel br.2
    else scanSpecParams fuel cs

/-- Modelled from the spec: the parameter tags of a block body. -/
def paramTags (body : Str) : List (Str × Str) := scanSpecParams (body.length + 1) body

/-- Modelled from the spec: the `ArgumentValue` tagged union of §3 — a plain
string or a structured JSON value, nothing else. -/
inductive ArgValue where
  | str (s : Str)
  | json (v : PyVal)

/-- Modelled from the spec: whether a trimmed body looks like a structured
literal (§4.2: starts `[`/ends `]` or starts `\x7b`/ends `\x7d`). -/
def looksStructured (t : Str) : Bool :=
  (t.head? = some '[' ∧ t.getLast? = some ']') ∨
    (t.head? = some '\x7b' ∧ t.getLast? = some '\x7d')

/-- Modelled from the spec: strip a single layer of enclosing back-tick
fencing, when present (§4.2). -/
def stripFence (t : Str) : Str :=
  if 2 ≤ t.length ∧ t.head? = some backtickChar ∧ t.getLast? = some backtickChar then
    trim ((t.drop 1).dropLast)
  else t

/-- Modelled from the spec: the Argument Coercion Engine of §4.2 on one
captured parameter body — trim; when the trimmed text looks structured,
attempt exactly one strict structured decode and on failure keep the
original trimmed string verbatim; otherwise keep the trimmed string (an
empty body stores as the empty string). -/
def coerceParam (body : Str) : ArgValue :=
  let t := trim body
  if looksStructured t then
    match jsonLoads? (stripFence t) with
    | some v => .json v
    | Option.none => .str t
  else .str t

/-- Modelled from the spec: the ambiguous-argument fallback of §4.2, applied
only when a block body contained zero parameter tags — with exactly one
required parameter in the schema, the whole trimmed raw body is assigned to
it as a string; with the schema absent, or zero or more than one required
parameter, the argument set stays empty. -/
def fallbackArgs (schemas : Option (List ToolSchema)) (name body : Str) :
    List (Str × ArgValue) :=
  match schemas with
  | Option.none => []
  | some ss =>
    match lookupSchema ss name with
    | Option.none => []
    | some sch =>
      match sch.required with
      | [r] => [(r, .str (trim body))]
      | _ => []

/-- Modelled from the spec: the arguments of one block — the coerced formal
parameters in order (later duplicates overwrite), or the fallback when the
body has no parameter tags. -/
def argsOfBlock (schemas : Option (List ToolSchema)) (name body : Str) :
    List (Str × ArgValue) :=
  match paramTags body with
  | [] => fallbackArgs schemas name body
  | params => params.foldl (fun acc p => dictSet acc p.1 (coerceParam p.2)) []

/-- Modelled from the spec: the `ToolCall` of §3, without the generated
opaque identifier (§4.4 makes it a fresh random token no claim depends
on). -/
structure Call where
  name : Str
  arguments : List (Str × ArgValue)

/-- Modelled from the spec: the Non-Streaming Parser of §4.4 with the
Schema Validator of §4.3 — every extracted block yields a call unless a
schema mapping is supplied and its name is not a key of the mapping, in
which case it is dropped before being added; `found` is the non-emptiness
of the result. -/
def parse (text : Str) (schemas : Option (List ToolSchema)) : Bool × List Call :=
  let calls := (extract text).filterMap fun b =>
    match schemas with
    | some ss =>
      if (lookupSchema ss b.1).isSome then some ⟨b.1, argsOfBlock schemas b.1 b.2⟩
      else Option.none
    | Option.none => some ⟨b.1, argsOfBlock schemas b.1 b.2⟩
  (!calls.isEmpty, calls)

end SpecModel

/-! Support lemmas about the scanning primitives. -/

theorem rfindChar?_lt {s : Str} {c : Char} {j : Nat}
    (h : rfindChar? s c = some j) : j < s.length := by
  induction s generalizing j with
  | nil => simp [rfindChar?] at h
  | cons x xs ih =>
    cases hr : rfindChar? xs c with
    | some j' =>
      simp only [rfindChar?, hr] at h
      cases h
      exact Nat.succ_lt_succ (ih hr)
    | none =>
      simp only [rfindChar?, hr] at h
      split at h
      · cases h
        simp
      · cases h

theorem rfindChar?_head {s : Str} {c : Char} {j : Nat}
    (h : rfindChar? s c = some j) : (s.drop j).head? = some c := by
  induction s generalizing j with
  | nil => simp [rfindChar?] at h
  | cons x xs ih =>
    cases hr : rfindChar? xs c with
    | some j' =>
      simp only [rfindChar?, hr] at h
      cases h
      simpa using ih hr
    | none =>
      simp only [rfindChar?, hr] at h
      split at h
      next hx =>
        cases h
        simpa using hx
      next => cases h

theorem rfindChar?_none {s : Str} {c : Char}
    (h : rfindChar? s c = none) : c ∉ s := by
  induction s with
  | nil => simp
  | cons x xs ih =>
    cases hr : rfindChar? xs c with
    | some j' => simp [rfindChar?, hr] at h
    | none =>
      simp only [rfindChar?, hr] at h
      split at h
      · cases h
      next hx =>
        simp only [List.mem_cons]
        rintro (rfl | hm)
        · exact hx rfl
        · exact ih hr hm

theorem rfindChar?_last {s : Str} {c : Char} {j : Nat}
    (h : rfindChar? s c = some j) : ∀ k, j < k → (s.drop k).head? ≠ some c := by
  induction s generalizing j with
  | nil => simp [rfindChar?] at h
  | cons x xs ih =>
    cases hr : rfindChar? xs c with
    | some j' =>
      simp only [rfindChar?, hr] at h
      cases h
      intro k hk
      cases k with
      | zero => omega
      | succ k' =>
        simpa using ih hr k' (Nat.lt_of_succ_lt_succ hk)
    | none =>
      simp only [rfindChar?, hr] at h
      split at h
      next hx =>
        cases h
        intro k hk
        cases k with
        | zero => omega
        | succ k' =>
          simp only [List.drop_succ_cons]
          intro hc
          have hmem : c ∈ xs.drop k' := by
            cases hd : xs.drop k' with
            | nil => rw [hd] at hc; cases hc
            | cons a l =>
              rw [hd] at hc
              cases hc
              exact List.mem_cons_self _ _
          exact rfindChar?_none hr (List.mem_of_mem_drop hmem)
      next => cases h

theorem findIdx?_prefixOf {s p : Str} {i : Nat}
    (h : findIdx? s p = some i) : p.isPrefixOf (s.drop i) = true := by
  induction s generalizing i with
  | nil =>
    simp only [findIdx?] at h
    split at h
    next hp =>
      cases h
      simpa using hp
    next => cases h
  | cons x xs ih =>
    simp only [findIdx?] at h
    split at h
    next hp =>
      cases h
      simpa using hp
    next =>
      cases hf : findIdx? xs p with
      | some i' =>
        rw [hf] at h
        cases h
        simpa using ih hf
      | none => rw [hf] at h; cases h

theorem findIdx?_le_length {s p : Str} {i : Nat}
    (h : findIdx? s p = some i) : i ≤ s.length := by
  induction s generalizing i with
  | nil =>
    simp only [findIdx?] at h
    split at h
    · cases h
      simp
    · cases h
  | cons x xs ih =>
    simp only [findIdx?] at h
    split at h
    · cases h
      simp
    · cases hf : findIdx? xs p with
      | some i' =>
        rw [hf] at h
        cases h
        simpa using Nat.succ_le_succ (ih hf)
      | none => rw [hf] at h; cases h

theorem rfindChar?_eq_none_iff {s : Str} {c : Char} :
    rfindChar? s c = none ↔ c ∉ s := by
  constructor
  · exact rfindChar?_none
  · intro hm
    cases hr : rfindChar? s c with
    | none => rfl
    | some j =>
      have hh := rfindChar?_head hr
      have : c ∈ s.drop j := by
        cases hd : s.drop j with
        | nil => rw [hd] at hh; cases hh
        | cons a l =>
          rw [hd] at hh
          cases hh
          exact List.mem_cons_self _ _
      exact absurd (List.mem_of_mem_drop this) hm

theorem mem_of_head?_eq {l : Str} {c : Char} (h : l.head? = some c) : c ∈ l := by
  cases hd : l with
  | nil => rw [hd] at h; cases h
  | cons a t =>
    rw [hd] at h
    cases h
    exact List.mem_cons_self _ _

theorem head?_drop_mem {s : Str} {c : Char} {j : Nat}
    (h : (s.drop j).head? = some c) : c ∈ s :=
  List.mem_of_mem_drop (mem_of_head?_eq h)

theorem strContains_infix_iff {s p : Str} : strContains s p = true ↔ p <:+: s := by
  simp only [strContains, List.any_eq_true]
  constructor
  · rintro ⟨t, ht, hp⟩
    rw [List.mem_tails] at ht
    rw [List.isPrefixOf_iff_prefix] at hp
    exact List.infix_iff_prefix_suffix.mpr ⟨t, hp, ht⟩
  · intro h
    obtain ⟨t, hp, ht⟩ := List.infix_iff_prefix_suffix.mp h
    exact ⟨t, (List.mem_tails _ _).mpr ht, List.isPrefixOf_iff_prefix.mpr hp⟩

theorem findIdx?_infix_isSome {s p : Str} (h : p <:+: s) :
    (findIdx? s p).isSome = true := by
  induction s with
  | nil =>
    obtain ⟨t, ht, hsfx⟩ := List.infix_iff_prefix_suffix.mp h
    have : t = [] := List.suffix_nil.mp hsfx
    subst this
    have : p = [] := List.prefix_nil.mp ht
    subst this
    simp [findIdx?]
  | cons x xs ih =>
    rw [List.infix_cons_iff] at h
    rcases h with hp | hin
    · simp [findIdx?, List.isPrefixOf_iff_prefix.mpr hp]
    · simp only [findIdx?]
      split
      · simp
      · have := ih hin
        cases hf : findIdx? xs p with
        | some i => simp
        | none => rw [hf] at this; cases this

theorem strContains_false_of_prefix {s s' p : Str} (hp : s <+: s')
    (h : strContains s' p = false) : strContains s p = false := by
  by_contra hc
  rw [Bool.not_eq_false, strContains_infix_iff] at hc
  rw [← Bool.not_eq_true, strContains_infix_iff] at h
  exact h (hc.trans hp.isInfix)

/-! Support lemmas about the state-machine components. -/

namespace Src

@[simp] theorem metaUpd_buffer (st : StState) (c : Chunk) :
    (metaUpd st c).buffer = st.buffer := by
  simp only [metaUpd]
  split <;> rfl

@[simp] theorem metaUpd_yielded (st : StState) (c : Chunk) :
    (metaUpd st c).yielded = st.yielded := by
  simp only [metaUpd]
  split <;> rfl

@[simp] theorem metaUpd_detected (st : StState) (c : Chunk) :
    (metaUpd st c).detected = st.detected := by
  simp only [metaUpd]
  split <;> rfl

@[simp] theorem metaUpd_tokens (st : StState) (c : Chunk) :
    (metaUpd st c).tokens = st.tokens := by
  simp only [metaUpd]
  split <;> rfl

@[simp] theorem metaUpd_finished (st : StState) (c : Chunk) :
    (metaUpd st c).finished = st.finished := by
  simp only [metaUpd]
  split <;> rfl

@[simp] theorem bufferUpd_yielded (st : StState) (ch : Choice) :
    (bufferUpd st ch).yielded = st.yielded := by
  simp only [bufferUpd]
  split <;> rfl

@[simp] theorem bufferUpd_detected (st : StState) (ch : Choice) :
    (bufferUpd st ch).detected = st.detected := by
  simp only [bufferUpd]
  split <;> rfl

@[simp] theorem bufferUpd_finished (st : StState) (ch : Choice) :
    (bufferUpd st ch).finished = st.finished := by
  simp only [bufferUpd]
  split <;> rfl

theorem bufferUpd_buffer (st : StState) (ch : Choice) :
    (bufferUpd st ch).buffer =
      st.buffer ++ (if optStrTruthy ch.deltaContent then ch.deltaContent.getD [] else []) := by
  simp only [bufferUpd]
  split <;> simp

theorem inCallCheck_state_buffer (st : StState) (fs : List Frame) (fin : Option Str) :
    ((inCallCheck st fs fin).2.state).buffer = st.buffer := by
  unfold inCallCheck
  split
  · split
    · rfl
    · split
      · rfl
      · split <;> rfl
  · split <;> rfl

theorem inCallCheck_state_yielded (st : StState) (fs : List Frame) (fin : Option Str) :
    ((inCallCheck st fs fin).2.state).yielded = st.yielded := by
  unfold inCallCheck
  split
  · split
    · rfl
    · split
      · rfl
      · split <;> rfl
  · split <;> rfl

theorem inCallCheck_state_detected (st : StState) (fs : List Frame) (fin : Option Str) :
    ((inCallCheck st fs fin).2.state).detected = st.detected := by
  unfold inCallCheck
  split
  · split
    · rfl
    · split
      · rfl
      · split <;> rfl
  · split <;> rfl

/-- The claim's notion for the holdback rule: the absolute index of the last
`<` in the unflushed tail, when the tail has one. -/
def lastUnflushedLt (st : StState) : Option Nat :=
  (rfindChar? (st.buffer.drop st.yielded) '<').map (st.yielded + ·)

/-- The claim's flush cursor: the position of the last unflushed `<` (hold
back from it on), or the whole buffer when the unflushed tail has none. -/
def holdbackCursor (st : StState) : Nat :=
  match lastUnflushedLt st with
  | some j => j
  | Option.none => st.buffer.length

/-- In the detected state the PLAIN logic does nothing (the `else` of line
237/251 writes and emits nothing). -/
theorem toh_detected (st : StState) (c : Chunk) (fin : Option Str)
    (h : st.detected = true) : triggerOrHoldback st c fin = ([], st) := by
  simp [triggerOrHoldback, h]

/-- A firing hard-stop scan puts a `<` into the unflushed tail (every stop
marker starts with one). -/
theorem stopScan_mem_lt (st : StState) (h : stopScan st = true) :
    '<' ∈ st.buffer.drop st.yielded := by
  simp only [stopScan, List.any_eq_true] at h
  obtain ⟨p, hp, hc⟩ := h
  rw [strContains_infix_iff] at hc
  have hlt : '<' ∈ p := by
    fin_cases hp <;> decide
  exact hc.subset hlt

/-- The cursor invariant of the PLAIN mode: the cursor stays within the
buffer; any `<` of the flushed region is matched by one in the unflushed
tail; and an undetected state whose buffer has no `<` at all is fully
flushed. -/
def cursorInv (st : StState) : Prop :=
  st.yielded ≤ st.buffer.length ∧
  ('<' ∈ st.buffer.take st.yielded → '<' ∈ st.buffer.drop st.yielded) ∧
  (st.detected = false → '<' ∉ st.buffer → st.yielded = st.buffer.length)

/-- In an undetected state whose buffer holds no call-opening marker, with
the cursor within bounds and any `<` of the flushed region also present in
the tail, the code's whole-buffer `rfind`-based step behaves exactly as the
claim describes: it advances the cursor to the last unflushed `<` (or to
the end when the tail has none) and emits the held-span as one frame. -/
theorem toh_plain (st : StState) (c : Chunk) (fin : Option Str)
    (hdet : st.detected = false)
    (ht1 : strContains st.buffer toolCallStartTok = false)
    (ht2 : strContains st.buffer functionOpenTok = false)
    (hy : st.yielded ≤ st.buffer.length)
    (hcur : '<' ∈ st.buffer.take st.yielded → '<' ∈ st.buffer.drop st.yielded) :
    triggerOrHoldback st c fin =
      ((if holdbackCursor st = st.yielded then []
        else if rfindChar? (st.buffer.drop st.yielded) '<' = Option.none then
          [Frame.chunkEcho c]
        else [Frame.text ((st.buffer.take (holdbackCursor st)).drop st.yielded) fin]),
        { st with yielded := holdbackCursor st }) := by
  obtain ⟨buf, y, ci, cm, cc, det, tok, fi⟩ := st
  simp only at hdet ht1 ht2 hy hcur ⊢
  subst hdet
  have hcond : ¬ (strContains buf toolCallStartTok = true ∨
      strContains buf functionOpenTok = true) := by
    rw [ht1, ht2]
    simp
  simp only [triggerOrHoldback, holdbackCursor, lastUnflushedLt, Bool.not_false, if_true,
    hcond, if_false]
  cases hg : rfindChar? buf '<' with
  | none =>
    have hnm : '<' ∉ buf := rfindChar?_none hg
    have htail : rfindChar? (buf.drop y) '<' = none :=
      rfindChar?_eq_none_iff.mpr (fun hm => hnm (List.mem_of_mem_drop hm))
    simp only [htail, Option.map_none']
    by_cases hty : buf.drop y = []
    · have hyl : y = buf.length := by
        have hle : buf.length ≤ y := List.drop_eq_nil_iff.mp hty
        omega
      simp [hty, hyl]
    · have hlt : y < buf.length := by
        rcases Nat.lt_or_ge y buf.length with h | h
        · exact h
        · exact absurd (List.drop_eq_nil_of_le h) hty
      have hne : (buf.drop y).isEmpty = false := by
        cases hd : buf.drop y with
        | nil => exact absurd hd hty
        | cons a l => rfl
      simp only [hne, Bool.not_false, if_true]
      rw [if_neg (by omega : ¬ buf.length = y)]
      try rw [if_pos rfl]
  | some lastLt =>
    have hllt := rfindChar?_lt hg
    have hhd := rfindChar?_head hg
    have hlast := rfindChar?_last hg
    cases hj : rfindChar? (buf.drop y) '<' with
    | none =>
      exfalso
      have hnotail : '<' ∉ buf.drop y := rfindChar?_eq_none_iff.mp hj
      rcases Nat.lt_or_ge lastLt y with hlty | hgey
      · have hmem : '<' ∈ buf.take y := by
          have h1 : (buf.take y).drop lastLt = (buf.drop lastLt).take (y - lastLt) :=
            List.drop_take ..
          have h2 : ((buf.take y).drop lastLt).head? = some '<' := by
            rw [h1]
            cases hd : buf.drop lastLt with
            | nil => rw [hd] at hhd; cases hhd
            | cons a l =>
              rw [hd] at hhd
              cases hhd
              cases hn : y - lastLt with
              | zero => omega
              | succ m => simp
          exact head?_drop_mem h2
        exact hnotail (hcur hmem)
      · have hmem : '<' ∈ buf.drop y := by
          have h1 : (buf.drop y).drop (lastLt - y) = buf.drop lastLt := by
            rw [List.drop_drop]
            congr 1
            omega
          refine head?_drop_mem (s := buf.drop y) (j := lastLt - y) ?_
          rw [h1]
          exact hhd
        exact hnotail hmem
    | some j =>
      have hjh := rfindChar?_head hj
      have hjlast := rfindChar?_last hj
      have hdd : (buf.drop y).drop j = buf.drop (y + j) := by
        rw [List.drop_drop]
      have h1 : y + j ≤ lastLt := by
        by_contra hc
        push_neg at hc
        refine hlast (y + j) hc ?_
        rw [← hdd]
        exact hjh
      have h2 : lastLt ≤ y + j := by
        have h3 : (buf.drop y).drop (lastLt - y) = buf.drop lastLt := by
          rw [List.drop_drop]
          congr 1
          omega
        by_contra hc
        push_neg at hc
        refine hjlast (lastLt - y) (by omega) ?_
        rw [h3]
        exact hhd
      have heq : lastLt = y + j := by omega
      subst heq
      simp only [Option.map_some']
      by_cases hj0 : j = 0
      · subst hj0
        rw [if_neg (by omega : ¬ y + 0 > y)]
        rw [if_pos (by omega : y + 0 = y)]
        simp
      · rw [if_pos (by omega : y + j > y)]
        have hlen : ((buf.take (y + j)).drop y).length = j := by
          rw [List.length_drop, List.length_take]
          omega
        have hne : ((buf.take (y + j)).drop y).isEmpty = false := by
          cases hd : (buf.take (y + j)).drop y with
          | nil =>
            rw [hd] at hlen
            simp at hlen
            omega
          | cons a l => rfl
        simp only [hne, Bool.not_false, if_true]
        rw [if_neg (by omega : ¬ y + j = y)]
        rw [if_neg (by simp : ¬ (some j = Option.none))]

/-- Every branch of the PLAIN logic keeps the buffer, never moves the
cursor backwards, and preserves (or establishes) the cursor invariant;
only the two bound-style parts of the invariant are needed beforehand. -/
theorem toh_inv (st : StState) (c : Chunk) (fin : Option Str)
    (hy : st.yielded ≤ st.buffer.length)
    (hcur : '<' ∈ st.buffer.take st.yielded → '<' ∈ st.buffer.drop st.yielded) :
    cursorInv ((triggerOrHoldback st c fin).2) ∧
    st.yielded ≤ ((triggerOrHoldback st c fin).2).yielded ∧
    ((triggerOrHoldback st c fin).2).buffer = st.buffer := by
  by_cases hdet : st.detected = true
  · rw [toh_detected st c fin hdet]
    refine ⟨⟨hy, hcur, ?_⟩, le_refl _, rfl⟩
    intro hfalse
    rw [hdet] at hfalse
    cases hfalse
  · have hdet' : st.detected = false := by
      cases hv : st.detected
      · rfl
      · exact absurd hv hdet
    by_cases htr : strContains st.buffer toolCallStartTok = true ∨
        strContains st.buffer functionOpenTok = true
    · have hcontains : strContains st.buffer
          (if strContains st.buffer toolCallStartTok then toolCallStartTok
            else functionOpenTok) = true := by
        split
        next h => exact h
        next h =>
          rcases htr with h1 | h1
          · exact absurd h1 h
          · exact h1
      have hheadT : (if strContains st.buffer toolCallStartTok then toolCallStartTok
          else functionOpenTok).head? = some '<' := by
        split <;> rfl
      obtain ⟨buf, y, ci, cm, cc, det, tok, fi⟩ := st
      simp only at hdet' hy hcur hcontains hheadT ⊢
      subst hdet'
      simp only [triggerOrHoldback, Bool.not_false, if_true, if_pos htr]
      cases hfi : findIdx? buf
          (if strContains buf toolCallStartTok then toolCallStartTok
            else functionOpenTok) with
      | none =>
        exact absurd (findIdx?_infix_isSome (strContains_infix_iff.mp hcontains))
          (by simp [hfi])
      | some i =>
        have hile : i ≤ buf.length := findIdx?_le_length hfi
        have hpre := findIdx?_prefixOf hfi
        have hdropHead : (buf.drop i).head? = some '<' := by
          obtain ⟨t, ht⟩ := List.isPrefixOf_iff_prefix.mp hpre
          rw [← ht]
          cases hT : (if strContains buf toolCallStartTok then toolCallStartTok
              else functionOpenTok) with
          | nil => rw [hT] at hheadT; cases hheadT
          | cons a l =>
            rw [hT] at hheadT
            cases hheadT
            rfl
        have hmemDrop : '<' ∈ buf.drop i := mem_of_head?_eq hdropHead
        have hlenTake : (buf.take i).length = i := by
          rw [List.length_take]
          omega
        simp only [Option.getD_some, hlenTake]
        by_cases hgt : i > y
        · rw [if_pos hgt]
          have htyLen : ((buf.take i).drop y).length = i - y := by
            rw [List.length_drop, hlenTake]
          have htyne : ((buf.take i).drop y).isEmpty = false := by
            cases hd : (buf.take i).drop y with
            | nil =>
              rw [hd] at htyLen
              simp at htyLen
              omega
            | cons a l => rfl
          simp only [htyne, Bool.not_false, if_true]
          refine ⟨⟨by simpa using hile, ?_, ?_⟩, by simpa using Nat.le_of_lt hgt, by trivial⟩
          · intro _
            simpa using hmemDrop
          · intro hfalse
            cases hfalse
        · rw [if_neg hgt]
          refine ⟨⟨by simpa using hy, by simpa using hcur, ?_⟩, le_refl _, by trivial⟩
          intro hfalse
          cases hfalse
    · have ht1 : strContains st.buffer toolCallStartTok = false := by
        cases hv : strContains st.buffer toolCallStartTok
        · rfl
        · exact absurd (Or.inl hv) htr
      have ht2 : strContains st.buffer functionOpenTok = false := by
        cases hv : strContains st.buffer functionOpenTok
        · rfl
        · exact absurd (Or.inr hv) htr
      rw [toh_plain st c fin hdet' ht1 ht2 hy hcur]
      cases hj : rfindChar? (st.buffer.drop st.yielded) '<' with
      | some j =>
        have hq : holdbackCursor st = st.yielded + j := by
          simp [holdbackCursor, lastUnflushedLt, hj]
        have hjlt := rfindChar?_lt hj
        have hjlen : j < st.buffer.length - st.yielded := by
          simpa [List.length_drop] using hjlt
        have hqlen : st.yielded + j ≤ st.buffer.length := by omega
        have hdropHead : (st.buffer.drop (st.yielded + j)).head? = some '<' := by
          have hdd : (st.buffer.drop st.yielded).drop j = st.buffer.drop (st.yielded + j) := by
            rw [List.drop_drop]
          rw [← hdd]
          exact rfindChar?_head hj
        refine ⟨⟨by simpa [hq] using hqlen, ?_, ?_⟩, ?_, by trivial⟩
        · intro _
          simpa [hq] using mem_of_head?_eq hdropHead
        · intro _ hnm
          exfalso
          exact hnm (head?_drop_mem hdropHead)
        · simp [hq]
      | none =>
        have hq : holdbackCursor st = st.buffer.length := by
          simp [holdbackCursor, lastUnflushedLt, hj]
        have hnotail : '<' ∉ st.buffer.drop st.yielded := rfindChar?_eq_none_iff.mp hj
        refine ⟨⟨by simp [hq], ?_, ?_⟩, by simpa [hq] using hy, by trivial⟩
        · intro hmem
          exfalso
          rw [hq, List.take_length] at hmem
          rw [← List.take_append_drop st.yielded st.buffer] at hmem
          rcases List.mem_append.mp hmem with hm | hm
          · exact hnotail (hcur hm)
          · exact hnotail hm
        · intro _ _
          simp [hq]

/-- The claim's flush cursor always lands on a `<` or at the end of the
buffer. -/
theorem holdbackCursor_boundary (st : StState) :
    holdbackCursor st = st.buffer.length ∨
    (st.buffer.drop (holdbackCursor st)).head? = some '<' := by
  cases hj : rfindChar? (st.buffer.drop st.yielded) '<' with
  | none =>
    left
    simp [holdbackCursor, lastUnflushedLt, hj]
  | some j =>
    right
    have hq : holdbackCursor st = st.yielded + j := by
      simp [holdbackCursor, lastUnflushedLt, hj]
    rw [hq]
    have hdd : (st.buffer.drop st.yielded).drop j = st.buffer.drop (st.yielded + j) := by
      rw [List.drop_drop]
    rw [← hdd]
    exact rfindChar?_head hj

/-- A cut that lands on a `<` or at the end of the buffer never falls
strictly inside an occurrence of a pattern that starts with `<` and has no
further `<`. -/
theorem boundary_no_split {B : Str} {q : Nat}
    (hb : q = B.length ∨ (B.drop q).head? = some '<') :
    ∀ (p : Str) (i : Nat), p.head? = some '<' → '<' ∉ p.tail →
      p.isPrefixOf (B.drop i) → ¬(i < q ∧ q < i + p.length) := by
  rintro p i hhd htl hpre ⟨hlo, hhi⟩
  obtain ⟨t, ht⟩ := List.isPrefixOf_iff_prefix.mp hpre
  have hlen : p.length + t.length = B.length - i := by
    have := congrArg List.length ht
    simpa [List.length_append, List.length_drop] using this
  have hiB : i ≤ B.length := by
    rcases Nat.le_total i B.length with h | h
    · exact h
    · have : B.drop i = [] := List.drop_eq_nil_of_le h
      rw [this] at ht
      have : p = [] := by
        cases p with
        | nil => rfl
        | cons a l => simp at ht
      rw [this] at hhd
      cases hhd
  have hbound : i + p.length ≤ B.length := by omega
  rcases hb with hq | hq
  · omega
  · have hdq : B.drop q = (p.drop (q - i)) ++ t := by
      have h1 : B.drop q = (B.drop i).drop (q - i) := by
        rw [List.drop_drop]
        congr 1
        omega
      rw [h1, ← ht]
      exact List.drop_append_of_le_length (by omega)
    have hplen : 0 < (p.drop (q - i)).length := by
      rw [List.length_drop]
      omega
    have hhead : (p.drop (q - i)).head? = some '<' := by
      rw [hdq] at hq
      cases hd : p.drop (q - i) with
      | nil =>
        rw [hd] at hplen
        simp at hplen
      | cons a l =>
        rw [hd] at hq
        simpa using hq
    have hmem : '<' ∈ p.drop (q - i) := mem_of_head?_eq hhead
    have htail : p.drop (q - i) = p.tail.drop (q - i - 1) := by
      cases hp : p with
      | nil => rw [hp] at hhd; cases hhd
      | cons a l =>
        simp only [List.tail_cons]
        have h2 : q - i = (q - i - 1) + 1 := by omega
        conv_lhs => rw [h2]
        rw [List.drop_succ_cons]
    rw [htail] at hmem
    exact htl (List.mem_of_mem_drop hmem)

/-- The complete-call check of lines 267–314 keeps the cursor invariant: it
never touches the buffer or the cursor. -/
theorem inCallCheck_inv (st : StState) (fs : List Frame) (fin : Option Str)
    (h : cursorInv st) : cursorInv ((inCallCheck st fs fin).2.state) := by
  obtain ⟨h1, h2, h3⟩ := h
  refine ⟨?_, ?_, ?_⟩
  · rw [inCallCheck_state_buffer, inCallCheck_state_yielded]
    exact h1
  · rw [inCallCheck_state_buffer, inCallCheck_state_yielded]
    exact h2
  · rw [inCallCheck_state_buffer, inCallCheck_state_yielded, inCallCheck_state_detected]
    exact h3

@[simp] theorem StepRes_state_next (st : StState) : (StepRes.next st).state = st := rfl

@[simp] theorem StepRes_state_halt (st : StState) : (StepRes.halt st).state = st := rfl

@[simp] theorem StepRes_state_oops (st : StState) (e : PyErr) :
    (StepRes.oops st e).state = st := rfl

/-- The step on a chunk without choices: the pass-through of line 317. -/
theorem processChunk_nil (st : StState) (c : Chunk) (hch : c.choices = []) :
    processChunk st c = ([Frame.passthrough c], .next (metaUpd st c)) := by
  unfold processChunk
  rw [hch]

/-- The step on a chunk with choices, written without the `let` bindings. -/
theorem processChunk_cons (st : StState) (c : Chunk) (choice : Choice)
    (rest : List Choice) (hch : c.choices = choice :: rest) :
    processChunk st c =
      (if optStrTruthy choice.deltaContent ∧
          (bufferUpd (metaUpd st c) choice).detected ∧
          (bufferUpd (metaUpd st c) choice).tokens > 500 then
        ([], .halt (bufferUpd (metaUpd st c) choice))
      else if optStrTruthy choice.deltaContent ∧
          stopScan (bufferUpd (metaUpd st c) choice) then
        ([], .halt (bufferUpd (metaUpd st c) choice))
      else
        inCallCheck
          (triggerOrHoldback (bufferUpd (metaUpd st c) choice) c choice.finishReason).2
          (triggerOrHoldback (bufferUpd (metaUpd st c) choice) c choice.finishReason).1
          choice.finishReason) := by
  unfold processChunk
  rw [hch]

/-- One whole loop iteration keeps the cursor invariant and never moves the
cursor backwards. -/
theorem processChunk_inv (st : StState) (c : Chunk) (h : cursorInv st) :
    cursorInv ((processChunk st c).2.state) ∧
    st.yielded ≤ ((processChunk st c).2.state).yielded := by
  obtain ⟨h1, h2, h3⟩ := h
  cases hch : c.choices with
  | nil =>
    rw [processChunk_nil st c hch]
    exact ⟨⟨by simpa using h1, by simpa using h2, by simpa using h3⟩, by simp⟩
  | cons choice rest =>
    rw [processChunk_cons st c choice rest hch]
    have hbm : (bufferUpd (metaUpd st c) choice).buffer =
        st.buffer ++ (if optStrTruthy choice.deltaContent
          then choice.deltaContent.getD [] else []) := by
      rw [bufferUpd_buffer, metaUpd_buffer]
    have hym : (bufferUpd (metaUpd st c) choice).yielded = st.yielded := by
      rw [bufferUpd_yielded, metaUpd_yielded]
    have hdm : (bufferUpd (metaUpd st c) choice).detected = st.detected := by
      rw [bufferUpd_detected, metaUpd_detected]
    have m1 : (bufferUpd (metaUpd st c) choice).yielded ≤
        (bufferUpd (metaUpd st c) choice).buffer.length := by
      rw [hym, hbm]
      simp only [List.length_append]
      omega
    have m2 : '<' ∈ (bufferUpd (metaUpd st c) choice).buffer.take
          (bufferUpd (metaUpd st c) choice).yielded →
        '<' ∈ (bufferUpd (metaUpd st c) choice).buffer.drop
          (bufferUpd (metaUpd st c) choice).yielded := by
      rw [hym, hbm]
      rw [List.take_append_of_le_length h1, List.drop_append_of_le_length h1]
      intro hm
      exact List.mem_append_left _ (h2 hm)
    split
    next hwd =>
      constructor
      · show cursorInv (bufferUpd (metaUpd st c) choice)
        refine ⟨m1, m2, ?_⟩
        intro hdf
        obtain ⟨-, hdet, -⟩ := hwd
        rw [hdf] at hdet
        cases hdet
      · show st.yielded ≤ (bufferUpd (metaUpd st c) choice).yielded
        rw [hym]
    next =>
      split
      next hss =>
        constructor
        · show cursorInv (bufferUpd (metaUpd st c) choice)
          refine ⟨m1, m2, ?_⟩
          intro _ hnm
          obtain ⟨-, hstop⟩ := hss
          exact absurd (List.mem_of_mem_drop (stopScan_mem_lt _ hstop)) hnm
        · show st.yielded ≤ (bufferUpd (metaUpd st c) choice).yielded
          rw [hym]
      next =>
        have htoh := toh_inv (bufferUpd (metaUpd st c) choice) c choice.finishReason m1 m2
        constructor
        · exact inCallCheck_inv _ _ _ htoh.1
        · rw [inCallCheck_state_yielded]
          calc st.yielded = (bufferUpd (metaUpd st c) choice).yielded := by rw [hym]
            _ ≤ _ := htoh.2.1

/-- Driving the loop over a concatenation: a `break` or an exception blocks
the remainder. -/
theorem runLoop_append (st : StState) (cs cs' : List Chunk) :
    runLoop st (cs ++ cs') =
      (match runLoop st cs with
        | (fs, .ranOff st') => ((fs ++ (runLoop st' cs').1, (runLoop st' cs').2))
        | (fs, .broke st') => (fs, .broke st')
        | (fs, .raised st' e) => (fs, .raised st' e)) := by
  induction cs generalizing st with
  | nil => simp [runLoop]
  | cons c cs ih =>
    simp only [List.cons_append, runLoop]
    cases hp : processChunk st c with
    | mk fs res =>
      cases res with
      | next st' =>
        cases hr : runLoop st' cs with
        | mk fs2 out =>
          cases out <;> simp [ih st', hr, List.append_assoc]
      | halt st' => simp
      | oops st' e => simp

/-- The cursor invariant holds along the whole loop. -/
theorem runLoop_inv (cs : List Chunk) :
    ∀ st, cursorInv st → cursorInv ((runLoop st cs).2.state) := by
  induction cs with
  | nil => intro st h; exact h
  | cons c cs ih =>
    intro st h
    simp only [runLoop]
    cases hp : processChunk st c with
    | mk fs res =>
      have hstep := processChunk_inv st c h
      rw [hp] at hstep
      cases res with
      | next st' => exact ih st' hstep.1
      | halt st' => exact hstep.1
      | oops st' e => exact hstep.1

/-- The cursor never moves backwards over the whole loop. -/
theorem runLoop_yield_mono (cs : List Chunk) :
    ∀ st, cursorInv st → st.yielded ≤ ((runLoop st cs).2.state).yielded := by
  induction cs with
  | nil => intro st _; exact le_refl _
  | cons c cs ih =>
    intro st h
    simp only [runLoop]
    cases hp : processChunk st c with
    | mk fs res =>
      have hstep := processChunk_inv st c h
      rw [hp] at hstep
      cases res with
      | next st' => exact le_trans hstep.2 (ih st' hstep.1)
      | halt st' => exact hstep.2
      | oops st' e => exact hstep.2

/-- The initial locals satisfy the cursor invariant. -/
theorem initState_cursorInv : cursorInv initState := by
  refine ⟨?_, ?_, ?_⟩ <;> simp [initState, cursorInv]

end Src

/-! Claim theorems. -/

/-- The concrete input on which the completeness claim fails: a single
well-formed wrapped call block whose function name only matches the
heuristic tool names after case normalization. -/
def c1FailingInput : Str := "<tool_call><function=Bash>echo hi</function></tool_call>".toList

/-- C1: for a text of well-formed wrapped call blocks, `parse_tool_calls`
is claimed to return `found=true` with one structured call per block.  On
this single well-formed block the heuristic fallback (no parameter tags,
nonempty body) computes the normalized name `bash` for matching but indexes
`param_map` with the raw `func_name`, so the call raises `KeyError('Bash')`
instead of returning: the first conjunct shows, through the specification's
own extractor, that the input is exactly one well-formed block. -/
theorem c1_wellformed_block_raises_keyerror :
    SpecModel.extract c1FailingInput = [("Bash".toList, "echo hi".toList)] ∧
    Src.parseToolCalls c1FailingInput = .error (.keyError "Bash".toList) :=
  ⟨rfl, rfl⟩

/-- C10: an input without the substring `<function=` makes
`parse_tool_calls` return `(False, [])` at its gate, even when the text
contains a `<tool_call>` wrapper; `has_tool_calls` checks for either token,
so it answers `True` on `<tool_call>` although the parser finds no calls. -/
theorem c10_function_gate :
    (∀ t : Str, strContains t Src.functionOpenTok = false →
      Src.parseToolCalls t = .ok (false, [])) ∧
    Src.hasToolCalls "<tool_call>".toList = true ∧
    Src.parseToolCalls "<tool_call>".toList = .ok (false, []) := by
  refine ⟨fun t h => ?_, rfl, rfl⟩
  simp [Src.parseToolCalls, h]

/-- Witness for C10 at a concrete input without `<function=`. -/
theorem c10_function_gate_witness :
    strContains "plain text".toList Src.functionOpenTok = false ∧
    Src.parseToolCalls "plain text".toList = .ok (false, []) :=
  ⟨rfl, c10_function_gate.1 _ rfl⟩

/-- The stream on which terminal-frame uniqueness fails: one chunk carrying
a truncated call (no closing tag), then exhaustion. -/
def c5Chunk : Src.Chunk :=
  ⟨some "chatcmpl-1".toList, some "qwen".toList, some 1,
    [⟨some "<function=bash><parameter=command>ls</parameter>".toList, Option.none⟩]⟩

/-- C5: exactly one frame per response is claimed to carry a non-null
finish reason.  On this stream the flush path recovers the truncated call,
sets `finished_with_tool_calls` (line 350) without sending a finish chunk,
and line 386 then suppresses the final chunk: the emitted frames are the
tool-call delta and the sentinel, with zero non-null finish reasons. -/
theorem c5_flush_recovery_has_no_terminal_frame :
    Src.streamSSE [c5Chunk] Option.none =
      [Src.Frame.toolDelta 0 "bash".toList "\x7b\"command\": \"ls\"\x7d".toList,
        Src.Frame.done] ∧
    Src.countFinishFrames (Src.streamSSE [c5Chunk] Option.none) = 0 :=
  ⟨rfl, rfl⟩

/-- C8 counterexample: on an upstream fault the handler of lines 390–398
yields the error frame and ends the generator; the claimed stream-end
sentinel never follows it. -/
theorem c8_fault_without_sentinel :
    Src.streamSSE [] (some "boom".toList) =
      [Src.Frame.errorFrame "boom".toList "stream_error".toList] ∧
    Src.Frame.done ∉ Src.streamSSE [] (some "boom".toList) :=
  ⟨rfl, by decide⟩

/-- C8 (amended): an upstream fault raised while the stream is being driven
is reported to the caller as a terminal error frame of shape
`error.message`/`error.type` after the frames already emitted; the stream
ends at that frame, without the stream-end sentinel. -/
theorem c8_fault_terminal_error_frame (cs : List Src.Chunk) (m : Str)
    (fs : List Src.Frame) (st : Src.StState)
    (h : Src.runLoop Src.initState cs = (fs, .ranOff st)) :
    Src.streamSSE cs (some m) = fs ++ [Src.Frame.errorFrame m "stream_error".toList] := by
  simp [Src.streamSSE, h]

/-- Witness for the amended C8 on the empty stream. -/
theorem c8_fault_terminal_error_frame_witness :
    Src.runLoop Src.initState [] = ([], .ranOff Src.initState) ∧
    Src.streamSSE [] (some "boom".toList) =
      [] ++ [Src.Frame.errorFrame "boom".toList "stream_error".toList] :=
  ⟨rfl, c8_fault_terminal_error_frame [] _ [] Src.initState rfl⟩

/-- Helper: `filterMap` of an everywhere-`some` function is a `map`. -/
theorem filterMap_some_eq_map {α β : Type} (g : α → β) (l : List α) :
    l.filterMap (fun a => some (g a)) = l.map g := by
  induction l with
  | nil => rfl
  | cons a l ih => simp [List.filterMap_cons, ih]

/-- C4: for a captured parameter body whose trimmed text starts with `[` and
ends with `]` or starts with `\x7b` and ends with `\x7d`, exactly one strict
structured decode is attempted: on success the decoded value is stored, on
failure the original trimmed string is stored verbatim.  The coercion is a
total function (no exception reaches the caller) and consults no
permissive Python-literal evaluation: the outcome is fully determined by
the one `jsonLoads?` result. -/
theorem c4_strict_structured_decode (body : Str)
    (h : SpecModel.looksStructured (trim body) = true) :
    (∃ v, SpecModel.coerceParam body = .json v ∧
      jsonLoads? (SpecModel.stripFence (trim body)) = some v) ∨
    (SpecModel.coerceParam body = .str (trim body) ∧
      jsonLoads? (SpecModel.stripFence (trim body)) = Option.none) := by
  have h' : SpecModel.coerceParam body =
      (match jsonLoads? (SpecModel.stripFence (trim body)) with
        | some v => SpecModel.ArgValue.json v
        | Option.none => SpecModel.ArgValue.str (trim body)) := by
    simp [SpecModel.coerceParam, h]
  cases hj : jsonLoads? (SpecModel.stripFence (trim body)) with
  | none =>
    right
    rw [h', hj]
    exact ⟨rfl, rfl⟩
  | some v =>
    left
    have hc : SpecModel.coerceParam body = .json v := by rw [h', hj]
    exact ⟨v, hc, rfl⟩

/-- Witness for C4 at the Python-style literal `\x7b'a': 1\x7d`: it looks
structured, the strict decode refuses its single quotes, and the trimmed
string is kept verbatim — no permissive evaluation recovers it. -/
theorem c4_strict_structured_decode_witness :
    SpecModel.looksStructured (trim "\x7b'a': 1\x7d".toList) = true ∧
    ((∃ v, SpecModel.coerceParam "\x7b'a': 1\x7d".toList = .json v ∧
        jsonLoads? (SpecModel.stripFence (trim "\x7b'a': 1\x7d".toList)) = some v) ∨
      (SpecModel.coerceParam "\x7b'a': 1\x7d".toList = .str (trim "\x7b'a': 1\x7d".toList) ∧
        jsonLoads? (SpecModel.stripFence (trim "\x7b'a': 1\x7d".toList)) = Option.none)) :=
  ⟨rfl, c4_strict_structured_decode _ rfl⟩

/-- C3: a `<function=NAME>` block with zero parameter tags gets, when the
supplied schema for `NAME` declares exactly one required parameter, the
entire trimmed raw body assigned to that parameter as a string; with the
schema absent, or with zero or more than one required parameters, the call
is still emitted with an empty argument set.  The last two conjuncts run
the full parser on the specification's own examples (`<function=bash>` with
body `echo ok` against `\x7bbash: required=[command]\x7d`, and against a
two-required-parameter schema). -/
theorem c3_ambiguous_fallback :
    (∀ (ss : List SpecModel.ToolSchema) (sch : SpecModel.ToolSchema) (name body r : Str),
      SpecModel.paramTags body = [] →
      SpecModel.lookupSchema ss name = some sch → sch.required = [r] →
      SpecModel.argsOfBlock (some ss) name body = [(r, .str (trim body))]) ∧
    (∀ name body : Str, SpecModel.paramTags body = [] →
      SpecModel.argsOfBlock Option.none name body = []) ∧
    (∀ (ss : List SpecModel.ToolSchema) (sch : SpecModel.ToolSchema) (name body : Str),
      SpecModel.paramTags body = [] →
      SpecModel.lookupSchema ss name = some sch → (∀ r, sch.required ≠ [r]) →
      SpecModel.argsOfBlock (some ss) name body = []) ∧
    SpecModel.parse "<function=bash>echo ok</function>".toList
        (some [⟨"bash".toList, ["command".toList], ["command".toList]⟩]) =
      (true, [⟨"bash".toList, [("command".toList, .str "echo ok".toList)]⟩]) ∧
    SpecModel.parse "<function=bash>echo ok</function>".toList
        (some [⟨"bash".toList, ["command".toList, "timeout".toList],
          ["command".toList, "timeout".toList]⟩]) =
      (true, [⟨"bash".toList, []⟩]) := by
  refine ⟨?_, ?_, ?_, rfl, rfl⟩
  · intro ss sch name body r hp hl hr
    simp [SpecModel.argsOfBlock, hp, SpecModel.fallbackArgs, hl, hr]
  · intro name body hp
    simp [SpecModel.argsOfBlock, hp, SpecModel.fallbackArgs]
  · intro ss sch name body hp hl hr
    rcases hreq : sch.required with _ | ⟨a, _ | ⟨b, l⟩⟩
    · simp [SpecModel.argsOfBlock, hp, SpecModel.fallbackArgs, hl, hreq]
    · exact absurd hreq (hr a)
    · simp [SpecModel.argsOfBlock, hp, SpecModel.fallbackArgs, hl, hreq]

/-- Witness for C3, discharging the fallback hypotheses on the `bash`
example block. -/
theorem c3_ambiguous_fallback_witness :
    SpecModel.paramTags "echo ok".toList = [] ∧
    SpecModel.lookupSchema [⟨"bash".toList, ["command".toList], ["command".toList]⟩]
      "bash".toList = some ⟨"bash".toList, ["command".toList], ["command".toList]⟩ ∧
    SpecModel.argsOfBlock (some [⟨"bash".toList, ["command".toList], ["command".toList]⟩])
      "bash".toList "echo ok".toList = [("command".toList, .str (trim "echo ok".toList))] :=
  ⟨rfl, rfl,
    c3_ambiguous_fallback.1 _ ⟨"bash".toList, ["command".toList], ["command".toList]⟩
      _ _ _ rfl rfl rfl⟩

/-- The schema-filtering example input of the specification: one wrapped
call to `foo`, one wrapped call to `bash`. -/
def c2Input : Str :=
  ("<tool_call><function=foo><parameter=x>1</parameter></function></tool_call>" ++
    "<tool_call><function=bash><parameter=command>ls</parameter></function></tool_call>").toList

/-- The schema mapping `\x7bbash: required=[command]\x7d`. -/
def c2Schema : List SpecModel.ToolSchema :=
  [⟨"bash".toList, ["command".toList], ["command".toList]⟩]

/-- C2: with a schema mapping supplied, every call whose name is not a key
of the mapping is dropped before being added to the result — every returned
call's name looks up successfully; on the example input calling `foo` and
`bash` against `\x7bbash: required=[command]\x7d`, only the `bash` call is
returned; and with no schema supplied, every discovered block passes
through unfiltered. -/
theorem c2_schema_filter :
    (∀ (text : Str) (ss : List SpecModel.ToolSchema) (c : SpecModel.Call),
      c ∈ (SpecModel.parse text (some ss)).2 →
      (SpecModel.lookupSchema ss c.name).isSome = true) ∧
    SpecModel.parse c2Input (some c2Schema) =
      (true, [⟨"bash".toList, [("command".toList, .str "ls".toList)]⟩]) ∧
    (∀ text : Str, (SpecModel.parse text Option.none).2 =
      (SpecModel.extract text).map fun b =>
        ⟨b.1, SpecModel.argsOfBlock Option.none b.1 b.2⟩) := by
  refine ⟨?_, rfl, ?_⟩
  · intro text ss c hc
    simp only [SpecModel.parse] at hc
    rw [List.mem_filterMap] at hc
    obtain ⟨b, _, hb⟩ := hc
    split at hb
    · cases hb
      assumption
    · cases hb
  · intro text
    simp only [SpecModel.parse]
    exact filterMap_some_eq_map _ _

/-- Witness for C2: the returned `bash` call of the example is a member of
the filtered result and its name is a key of the mapping. -/
theorem c2_schema_filter_witness :
    (⟨"bash".toList, [("command".toList, .str "ls".toList)]⟩ : SpecModel.Call) ∈
      (SpecModel.parse c2Input (some c2Schema)).2 ∧
    (SpecModel.lookupSchema c2Schema "bash".toList).isSome = true :=
  ⟨List.Mem.head _,
    c2_schema_filter.1 c2Input c2Schema
      ⟨"bash".toList, [("command".toList, .str "ls".toList)]⟩ (List.Mem.head _)⟩

/-- C7: in the PLAIN mode (no call-opening marker seen, none present in the
buffer), each processing step flushes as plain text exactly the buffer
content strictly before the last unflushed `<` — everything, when the
unflushed tail has no `<` — holding back from that `<` onward: the code's
whole-buffer `rfind` equals this rule in every state satisfying the cursor
invariant, which the first conjunct establishes along every run.  The new
cursor lands on a `<` or at the end of a `<`-free buffer, so the boundary
between the flushed frames and the held-back tail never falls strictly
inside an occurrence of a tag (a pattern starting with `<` with no later
`<`, which covers both call-opening markers and the hard-stop markers):
a tag is never split across two emitted frames. -/
theorem c7_boundary_holdback :
    (∀ cs : List Src.Chunk, Src.cursorInv (Src.loopState cs)) ∧
    (∀ (st : Src.StState) (c : Src.Chunk) (fin : Option Str),
      Src.cursorInv st → st.detected = false →
      strContains st.buffer Src.toolCallStartTok = false →
      strContains st.buffer Src.functionOpenTok = false →
      (Src.triggerOrHoldback st c fin =
        ((if Src.holdbackCursor st = st.yielded then []
          else if rfindChar? (st.buffer.drop st.yielded) '<' = Option.none then
            [Src.Frame.chunkEcho c]
          else
            [Src.Frame.text ((st.buffer.take (Src.holdbackCursor st)).drop st.yielded) fin]),
          { st with yielded := Src.holdbackCursor st })) ∧
      (Src.holdbackCursor st = st.buffer.length ∨
        (st.buffer.drop (Src.holdbackCursor st)).head? = some '<') ∧
      (∀ (p : Str) (i : Nat), p.head? = some '<' → '<' ∉ p.tail →
        p.isPrefixOf (st.buffer.drop i) →
        ¬(i < Src.holdbackCursor st ∧ Src.holdbackCursor st < i + p.length))) := by
  constructor
  · intro cs
    exact Src.runLoop_inv cs Src.initState Src.initState_cursorInv
  · intro st c fin hinv hdet ht1 ht2
    exact ⟨Src.toh_plain st c fin hdet ht1 ht2 hinv.1 hinv.2.1,
      Src.holdbackCursor_boundary st,
      Src.boundary_no_split (Src.holdbackCursor_boundary st)⟩

/-- Witness for C7 at a concrete PLAIN state holding back a partial tag. -/
theorem c7_boundary_holdback_witness :
    (Src.cursorInv ⟨"hi <b".toList, 0, Option.none, Option.none, Option.none,
        false, 0, false⟩ ∧
      strContains "hi <b".toList Src.toolCallStartTok = false ∧
      strContains "hi <b".toList Src.functionOpenTok = false) ∧
    ((Src.triggerOrHoldback
        ⟨"hi <b".toList, 0, Option.none, Option.none, Option.none, false, 0, false⟩
        ⟨Option.none, Option.none, Option.none, []⟩ Option.none =
        ((if Src.holdbackCursor ⟨"hi <b".toList, 0, Option.none, Option.none,
            Option.none, false, 0, false⟩ = 0 then []
          else if rfindChar? ("hi <b".toList.drop 0) '<' = Option.none then
            [Src.Frame.chunkEcho ⟨Option.none, Option.none, Option.none, []⟩]
          else
            [Src.Frame.text (("hi <b".toList.take (Src.holdbackCursor
              ⟨"hi <b".toList, 0, Option.none, Option.none, Option.none,
                false, 0, false⟩)).drop 0) Option.none]),
          { (⟨"hi <b".toList, 0, Option.none, Option.none, Option.none, false, 0,
              false⟩ : Src.StState) with
            yielded := Src.holdbackCursor ⟨"hi <b".toList, 0, Option.none,
              Option.none, Option.none, false, 0, false⟩ })) ∧
      (Src.holdbackCursor ⟨"hi <b".toList, 0, Option.none, Option.none, Option.none,
          false, 0, false⟩ = "hi <b".toList.length ∨
        ("hi <b".toList.drop (Src.holdbackCursor ⟨"hi <b".toList, 0, Option.none,
          Option.none, Option.none, false, 0, false⟩)).head? = some '<') ∧
      (∀ (p : Str) (i : Nat), p.head? = some '<' → '<' ∉ p.tail →
        p.isPrefixOf ("hi <b".toList.drop i) →
        ¬(i < Src.holdbackCursor ⟨"hi <b".toList, 0, Option.none, Option.none,
            Option.none, false, 0, false⟩ ∧
          Src.holdbackCursor ⟨"hi <b".toList, 0, Option.none, Option.none,
            Option.none, false, 0, false⟩ < i + p.length))) :=
  ⟨⟨⟨by decide, by decide, by decide⟩, by decide, by decide⟩,
    c7_boundary_holdback.2 _ _ _ ⟨by decide, by decide, by decide⟩ rfl rfl rfl⟩

/-- C9: throughout any streaming response, the yielded-length cursor of the
aggregator's loop state never exceeds the length of the accumulated buffer,
and it is monotonically non-decreasing from each processing step to the
next (the state after a prefix of the chunk stream to the state after one
more chunk). -/
theorem c9_cursor_monotone_bounded :
    (∀ cs : List Src.Chunk,
      (Src.loopState cs).yielded ≤ (Src.loopState cs).buffer.length) ∧
    (∀ (cs : List Src.Chunk) (c : Src.Chunk),
      (Src.loopState cs).yielded ≤ (Src.loopState (cs ++ [c])).yielded) := by
  constructor
  · intro cs
    exact (Src.runLoop_inv cs Src.initState Src.initState_cursorInv).1
  · intro cs c
    unfold Src.loopState
    rw [Src.runLoop_append]
    cases hr : Src.runLoop Src.initState cs with
    | mk fs out =>
      cases out with
      | ranOff st' =>
        have hin : Src.cursorInv st' := by
          have hi := Src.runLoop_inv cs Src.initState Src.initState_cursorInv
          rw [hr] at hi
          exact hi
        have hm := Src.runLoop_yield_mono [c] st' hin
        simpa using hm
      | broke st' => simp
      | raised st' e => simp

/-- The chunk that enters the in-call state: its content holds the
`<function=` trigger and no closing marker. -/
def c6Trigger : Src.Chunk :=
  ⟨some "c6".toList, some "m".toList, some 7,
    [⟨some "<function=bash>x".toList, Option.none⟩]⟩

/-- One further content-bearing fragment with no closing tag. -/
def c6Spam : Src.Chunk :=
  ⟨Option.none, Option.none, Option.none, [⟨some "a".toList, Option.none⟩]⟩

/-- The synthetic stream of the claim: enter the in-call state, then deliver
501 further content-bearing fragments without a closing tag. -/
def c6Stream : List Src.Chunk := c6Trigger :: List.replicate 501 c6Spam

/-- The accumulated buffer at the moment the watchdog fires. -/
def c6Buffer : Str := "<function=bash>x".toList ++ List.replicate 501 'a'

/-- The aggregator's locals at the watchdog break: the call was detected,
501 fragments were counted since detection, nothing was yielded. -/
def c6HaltState : Src.StState :=
  ⟨c6Buffer, 0, some "c6".toList, some "m".toList, some 7, true, 501, false⟩

/-- The loop over the synthetic stream breaks at the 501st counted fragment
with no frame emitted. -/
theorem c6_run_eval :
    Src.runLoop Src.initState c6Stream = ([], .broke c6HaltState) := rfl

/-- The argument string the trailing parse recovers from the unclosed
buffer: the whole raw body, serialized. -/
def c6ArgsJson : Str :=
  "\x7b\"command\": \"x".toList ++ List.replicate 501 'a' ++ "\"\x7d".toList

/-- C6: the watchdog itself behaves as claimed — on the synthetic stream
that enters the in-call state and then delivers 501 further content-bearing
fragments without a closing tag, the loop stops consuming (appending any
further fragments changes nothing) with the token-since-detection counter
at 501, and the stream terminates.  But the claimed finish reason is never
emitted: the trailing parse recovers a call, the flush path of line 350
sets `finished_with_tool_calls` without sending a finish chunk, and line
386 then suppresses the final chunk, so the emitted frames are exactly the
recovered tool-call delta and the `[DONE]` sentinel — zero frames carry a
non-null finish reason where the claim promises a `"tool_calls"` one. -/
theorem c6_watchdog_runaway :
    (∀ extra : List Src.Chunk,
        Src.runLoop Src.initState (c6Stream ++ extra) =
          Src.runLoop Src.initState c6Stream) ∧
    (Src.loopState c6Stream).tokens = 501 ∧
    Src.streamSSE c6Stream Option.none =
      [Src.Frame.toolDelta 0 "bash".toList c6ArgsJson, Src.Frame.done] ∧
    Src.countFinishFrames (Src.streamSSE c6Stream Option.none) = 0 := by
  have h3 : Src.streamSSE c6Stream Option.none =
      [Src.Frame.toolDelta 0 "bash".toList c6ArgsJson, Src.Frame.done] := by
    simp only [Src.streamSSE]
    rw [c6_run_eval]
    rfl
  refine ⟨?_, ?_, h3, ?_⟩
  · intro extra
    rw [Src.runLoop_append, c6_run_eval]
  · show ((Src.runLoop Src.initState c6Stream).2.state).tokens = 501
    rw [c6_run_eval]
    rfl
  · rw [h3]
    rfl

end QwenServer
